import Mathlib

/-!
Mingoose: the connection lifecycle pipeline.

A shallow embedding of `src/mingoose.c`: the keep-alive decision, request
validation and buffer compaction of `process_new_connection`, the accept queue
(`produce_socket`, `consume_socket`), the worker loop, the throttled writer
`mg_write`, the utilities `mg_url_decode`, `mg_url_encode`, `mg_get_var`,
`mg_get_cookie`, and `parse_port_string`, `set_sock_timeout`.

Conventions.
* A C string is the list of its characters before the terminating NUL;
  reading the string at its length yields the NUL (`cstr_at`).
* C integers are `Int`; where a computation can leave the range of its C type
  the wrap-around is written out (`wrap64`, `to_int`).
* Functions of the repository that are called but whose text is not part of
  the source at hand (`getreq`, `response_error`, the request handler, `send`)
  are inputs of the model: every theorem quantifies over them. The string
  helpers `mg_strcasecmp`, `mg_strncasecmp`, `mg_strcasestr`, `mg_strlcpy` and
  `mg_get_header` are modelled from the spec.
* Memory at a pointer is the list of the characters from that pointer on; a
  write is `List.set`.
* `stop_flag` is shared and volatile: each read is an input of the model.
-/

namespace Mingoose

/-! ## C strings -/

/-- The character of a NUL-terminated string at index `i` (the NUL at its end). -/
def cstr_at (s : List Char) (i : Nat) : Char := s.getD i (Char.ofNat 0)

/-- A well-formed C string has no NUL before its terminator. -/
def nul_free (s : List Char) : Prop := ∀ c ∈ s, c ≠ Char.ofNat 0

/-- The C library `strcmp`: the difference of the first pair of characters
that differ, `0` when both strings end together. -/
def strcmp : List Char → List Char → Int
  | [], [] => 0
  | [], b :: _ => 0 - (b.toNat : Int)
  | a :: _, [] => (a.toNat : Int)
  | a :: s, b :: t =>
    if a ≠ b then (a.toNat : Int) - (b.toNat : Int)
    else if a = Char.ofNat 0 then 0
    else strcmp s t

/-- The C library `tolower` on an unsigned char. -/
def lowercase (c : Char) : Char := c.toLower

/-- Modelled from the spec: `mg_strcasecmp` is called by `should_keep_alive`
but its text is not in the source; the spec says the comparison is made
"case-insensitively". It is `strcmp` on the lower-cased characters. -/
def mg_strcasecmp : List Char → List Char → Int
  | [], [] => 0
  | [], b :: _ => 0 - ((lowercase b).toNat : Int)
  | a :: _, [] => ((lowercase a).toNat : Int)
  | a :: s, b :: t =>
    if lowercase a ≠ lowercase b then
      ((lowercase a).toNat : Int) - ((lowercase b).toNat : Int)
    else if a = Char.ofNat 0 then 0
    else mg_strcasecmp s t

/-! ## Data model -/

/-- The part of `struct mg_request_info` that the request loop reads.
`http_version` is `none` for a NULL pointer (no version parsed). -/
structure mg_request_info where
  uri : List Char := []
  http_version : Option (List Char) := none
  http_headers : List (List Char × List Char) := []
  deriving DecidableEq, Repr

/-- An accepted socket, `struct socket`: the descriptor and the two addresses. -/
structure socket where
  sock : Int
  lsa : Nat
  rsa : Nat
  deriving DecidableEq, Repr

/-- The fields of `struct mg_context` used here: the frozen setting
`config[op("enable_keep_alive")]` and the accept queue, an array of
`ARRAY_SIZE(queue) = queue.length` socket records with its two counters.
The field `stop_flag` is volatile and written by other threads: every read of
it is an argument of the function that reads it. -/
structure mg_context where
  enable_keep_alive : List Char
  queue : List socket
  sq_head : Int
  sq_tail : Int
  deriving DecidableEq, Repr

/-- The fields of `struct mg_connection` used here. `buf` is the receive
buffer, a byte array of `buf_size` bytes; `client` is the accepted socket. -/
structure mg_connection where
  request_info : mg_request_info := {}
  client : socket := ⟨0, 0, 0⟩
  must_close : Int := 0
  status_code : Int := 0
  content_len : Int := 0
  request_len : Int := 0
  data_len : Int := 0
  buf_size : Int := 0
  buf : List Nat := []
  throttle : Int := 0
  last_throttle_time : Int := 0
  last_throttle_bytes : Int := 0
  num_bytes_read : Int := 0
  deriving DecidableEq, Repr

/-- Modelled from the spec: `mg_get_header` is called by `should_keep_alive`
but its text is not in the source; the spec says a header is found by a
"case-insensitive name match". It returns the value of the first header with
that name, `none` (NULL) when there is none. -/
def mg_get_header (conn : mg_connection) (name : List Char) : Option (List Char) :=
  (conn.request_info.http_headers.find? (fun h => mg_strcasecmp name h.1 == 0)).map
    (fun h => h.2)

/-! ## should_keep_alive -/

/-- The function `should_keep_alive` of the source (lines 105-116). -/
def should_keep_alive (ctx : mg_context) (conn : mg_connection) : Int :=
  let http_version := conn.request_info.http_version
  let header := mg_get_header conn "Connection".toList
  if conn.must_close != 0 ||
     conn.status_code == 401 ||
     mg_strcasecmp ctx.enable_keep_alive "yes".toList != 0 ||
     (match header with
      | some h => mg_strcasecmp h "keep-alive".toList != 0
      | none => false) ||
     (match header, http_version with
      | none, some v => strcmp v "1.1".toList != 0
      | _, _ => false) then 0
  else 1

/-- The function `suggest_connection_header` of the source (lines 118-120). -/
def suggest_connection_header (ctx : mg_context) (conn : mg_connection) : List Char :=
  if should_keep_alive ctx conn != 0 then "keep-alive".toList else "close".toList

/-! ## The request loop: process_new_connection -/

/-- The function `is_valid_uri` of the source (lines 658-662): the URI is an
asterisk or starts with a slash. -/
def is_valid_uri (uri : List Char) : Bool :=
  cstr_at uri 0 == '/' || (cstr_at uri 0 == '*' && cstr_at uri 1 == Char.ofNat 0)

/-- The C library `snprintf(ebuf, size, ...)` for a text already formatted: at
most `size - 1` characters are kept. -/
def snprintf (size : Nat) (text : List Char) : List Char := text.take (size - 1)

/-- What `process_new_connection` calls, in the order of the calls. -/
inductive event where
  | response_error (status : Int) (reason : List Char) (text : List Char)
  | dispatch_and_send_response
  | call_user_request_end (status_code : Int)
  | log_access
  deriving DecidableEq, Repr

/-- The callees of one iteration of the request loop whose text is not in the
source. `getreq` gives its return value, the error buffer it leaves and the
connection it leaves; `response_error`, `dispatch_and_send_response`,
`call_user` (for `MG_REQUEST_END`) and `log_access` give the connection they
leave; `stop_flag` is the value of `conn->ctx->stop_flag` read at line 704. -/
structure request_env where
  getreq : mg_connection → Bool × List Char × mg_connection
  response_error : Int → mg_connection → mg_connection
  dispatch_and_send_response : mg_connection → mg_connection
  call_user : Int → mg_connection → mg_connection
  log_access : mg_connection → mg_connection
  stop_flag : Int

/-- Lines 676-692 of `process_new_connection`: read and validate one request,
answer an error or dispatch it. Returns the calls made, the error buffer
`ebuf` and the connection at line 700. The version string is read only after
`getreq` succeeded, when it is not NULL. -/
def serve_request (env : request_env) (conn : mg_connection) :
    List event × List Char × mg_connection :=
  let (ok, ebuf0, c0) := env.getreq conn
  let ri := c0.request_info
  let (ev1, ebuf, c1) : List event × List Char × mg_connection :=
    if !ok then
      ([event.response_error 500 "Server Error".toList ebuf0], ebuf0,
        { env.response_error 500 c0 with must_close := 1 })
    else if !is_valid_uri ri.uri then
      let ebuf := snprintf 100 ("Invalid URI: [".toList ++ ri.uri ++ "]".toList)
      ([event.response_error 400 "Bad Request".toList ebuf], ebuf,
        env.response_error 400 c0)
    else if strcmp (ri.http_version.getD []) "1.0".toList != 0 &&
            strcmp (ri.http_version.getD []) "1.1".toList != 0 then
      let ebuf := snprintf 100
        ("Bad HTTP version: [".toList ++ ri.http_version.getD [] ++ "]".toList)
      ([event.response_error 505 "Bad HTTP version".toList ebuf], ebuf,
        env.response_error 505 c0)
    else ([], ebuf0, c0)
  if cstr_at ebuf 0 == Char.ofNat 0 then
    let c2 := env.dispatch_and_send_response c1
    let c3 := env.call_user c2.status_code c2
    (ev1 ++ [event.dispatch_and_send_response,
             event.call_user_request_end c2.status_code, event.log_access], ebuf,
      env.log_access c3)
  else (ev1, ebuf, c1)

/-- Arithmetic of `int64_t`: the result wraps around modulo 2^64. -/
def wrap64 (x : Int) : Int := (x + 2 ^ 63) % 2 ^ 64 - 2 ^ 63

/-- The cast `(int)`: the value is narrowed to 32 bits. -/
def to_int (x : Int) : Int := (x + 2 ^ 31) % 2 ^ 32 - 2 ^ 31

/-- The C library `memmove(buf + dst, buf + src, n)` within one byte array. -/
def memmove (buf : List Nat) (dst src n : Nat) : List Nat :=
  buf.take dst ++ (buf.drop src).take n ++ buf.drop (dst + n)

/-- Lines 708-710 of `process_new_connection`: the number of buffered bytes
that belong to the request just served. -/
def discard_len (conn : mg_connection) : Int :=
  if conn.content_len ≥ 0 ∧ conn.request_len > 0 ∧
      wrap64 (conn.request_len + conn.content_len) < conn.data_len then
    to_int (wrap64 (conn.request_len + conn.content_len))
  else conn.data_len

/-- Lines 708-715 of `process_new_connection`: discard the buffered data of the
request just served. -/
def compact (conn : mg_connection) : mg_connection :=
  let d := discard_len conn
  { conn with
    buf := memmove conn.buf 0 d.toNat (conn.data_len - d).toNat
    data_len := conn.data_len - d }

/-- Lines 704-705 of `process_new_connection`: the keep-alive decision. -/
def keep_alive (ctx : mg_context) (keep_alive_enabled : Bool) (stop_flag : Int)
    (conn : mg_connection) : Bool :=
  stop_flag == 0 && keep_alive_enabled &&
    decide (conn.content_len ≥ 0) && should_keep_alive ctx conn != 0

/-- The do-while loop of `process_new_connection` (lines 675-716), one
`request_env` per iteration: it returns the calls made and the connection left
when the loop ends or the given iterations are used up. -/
def request_loop (ctx : mg_context) (keep_alive_enabled : Bool) :
    List request_env → mg_connection → List event × mg_connection
  | [], conn => ([], conn)
  | env :: rest, conn =>
    let (evs, _, c1) := serve_request env conn
    let ka := keep_alive ctx keep_alive_enabled env.stop_flag c1
    let c2 := compact c1
    if ka then
      let (evs2, c3) := request_loop ctx keep_alive_enabled rest c2
      (evs ++ evs2, c3)
    else (evs, c2)

/-- The function `process_new_connection` of the source (lines 664-717). -/
def process_new_connection (ctx : mg_context) (envs : List request_env)
    (conn : mg_connection) : List event × mg_connection :=
  let keep_alive_enabled := strcmp ctx.enable_keep_alive "yes".toList == 0
  request_loop ctx keep_alive_enabled envs { conn with data_len := 0 }

/-! ## The accept queue -/

/-- The conversion of an `int` to `size_t` (64 bits), as in `sq_head % ARRAY_SIZE(queue)`. -/
def to_size_t (x : Int) : Int := x % 2 ^ 64

/-- The capacity `ARRAY_SIZE(ctx->queue)`. -/
def ARRAY_SIZE (ctx : mg_context) : Int := (ctx.queue.length : Int)

/-- The wait loop of `produce_socket` (lines 803-806): the master waits on
`sq_empty` while this holds. -/
def produce_waits (stop_flag : Int) (ctx : mg_context) : Bool :=
  stop_flag == 0 && decide (to_int (ctx.sq_head - ctx.sq_tail) ≥ to_int (ARRAY_SIZE ctx))

/-- The test of line 808 of `produce_socket`: there is room in the queue. -/
def produce_stores (ctx : mg_context) : Bool :=
  decide (to_int (ctx.sq_head - ctx.sq_tail) < to_int (ARRAY_SIZE ctx))

/-- Lines 808-813 of `produce_socket`: the critical section after the wait. -/
def produce_store (ctx : mg_context) (sp : socket) : mg_context :=
  if produce_stores ctx then
    { ctx with
      queue := ctx.queue.set (to_size_t ctx.sq_head % ARRAY_SIZE ctx).toNat sp
      sq_head := to_int (ctx.sq_head + 1) }
  else ctx

/-- The function `produce_socket` of the source (lines 799-817), taken as one
atomic step under the mutex: `none` while the master is still waiting, else the
context it leaves. `stop_flag` is the value read by the wait loop. -/
def produce_socket (stop_flag : Int) (ctx : mg_context) (sp : socket) : Option mg_context :=
  if produce_waits stop_flag ctx then none else some (produce_store ctx sp)

/-- The loop "wrap pointers if needed" of `consume_socket` (lines 737-740) on
`(sq_tail, sq_head)`, at most `fuel` iterations. -/
def wrap_pointers (size : Int) : Nat → Int × Int → Int × Int
  | 0, p => p
  | fuel + 1, (tail, head) =>
    if tail > to_int size then wrap_pointers size fuel (to_int (tail - size), to_int (head - size))
    else (tail, head)

/-- The wait loop of `consume_socket` (lines 725-727): the worker waits on
`sq_full` while this holds. -/
def consume_waits (stop_flag : Int) (ctx : mg_context) : Bool :=
  ctx.sq_head == ctx.sq_tail && stop_flag == 0

/-- The test of line 730 of `consume_socket`: there is a record in the queue. -/
def consume_takes (ctx : mg_context) : Bool := decide (ctx.sq_head > ctx.sq_tail)

/-- Lines 730-741 of `consume_socket`: the critical section after the wait.
Returns the context and the socket record `*sp` it leaves. -/
def consume_take (ctx : mg_context) (sp : socket) : mg_context × socket :=
  if consume_takes ctx then
    let sp1 := ctx.queue.getD (to_size_t ctx.sq_tail % ARRAY_SIZE ctx).toNat sp
    let tail := to_int (ctx.sq_tail + 1)
    let p := wrap_pointers (ARRAY_SIZE ctx) tail.toNat (tail, ctx.sq_head)
    ({ ctx with sq_tail := p.1, sq_head := p.2 }, sp1)
  else (ctx, sp)

/-- The function `consume_socket` of the source (lines 720-747), taken as one
atomic step under the mutex: `none` while the worker is still waiting, else
its return value `!ctx->stop_flag`, the context and `*sp`. `stop_flag` is the
value read by the wait loop, `stop_flag_ret` the value read by the `return`. -/
def consume_socket (stop_flag stop_flag_ret : Int) (ctx : mg_context) (sp : socket) :
    Option (Int × mg_context × socket) :=
  if consume_waits stop_flag ctx then none
  else
    let r := consume_take ctx sp
    some (if stop_flag_ret == 0 then 1 else 0, r.1, r.2)

/-- One call on the accept queue, with the values of `stop_flag` it reads. -/
inductive queue_op where
  | produce (stop_flag : Int) (sp : socket)
  | consume (stop_flag stop_flag_ret : Int)
  deriving DecidableEq, Repr

/-- A run of the accept queue: the calls take their critical sections one
after the other in the order of the list (a call that would still wait takes
no step). The run keeps the records stored by `produce_socket` and the records
removed by `consume_socket`, each in the order of the steps. -/
structure queue_run where
  ctx : mg_context
  stored : List socket
  removed : List socket
  deriving DecidableEq, Repr

/-- One step of a run of the accept queue. -/
def queue_step (r : queue_run) : queue_op → queue_run
  | queue_op.produce stop_flag sp =>
    match produce_socket stop_flag r.ctx sp with
    | none => r
    | some ctx1 =>
      { r with
        ctx := ctx1
        stored := if produce_stores r.ctx then r.stored ++ [sp] else r.stored }
  | queue_op.consume stop_flag stop_flag_ret =>
    match consume_socket stop_flag stop_flag_ret r.ctx ⟨-1, 0, 0⟩ with
    | none => r
    | some (_, ctx1, sp1) =>
      { r with
        ctx := ctx1
        removed := if consume_takes r.ctx then r.removed ++ [sp1] else r.removed }

/-- The run of a list of calls from a given state. -/
def queue_steps (r : queue_run) (ops : List queue_op) : queue_run := ops.foldl queue_step r

/-- The accept queue at start-up: `calloc` zeroes the context. -/
def queue_init (enable_keep_alive : List Char) (size : Nat) : queue_run :=
  { ctx := { enable_keep_alive := enable_keep_alive
             queue := List.replicate size ⟨0, 0, 0⟩, sq_head := 0, sq_tail := 0 }
    stored := [], removed := [] }

/-- The bounded FIFO list that the accept queue implements, in the words of the
spec: `enqueue` appends when the occupancy is below the capacity. -/
def fifo_enqueue (capacity : Nat) (q : List socket) (s : socket) : List socket :=
  if q.length < capacity then q ++ [s] else q

/-- The bounded FIFO list: `dequeue` pops the oldest record, if any. -/
def fifo_dequeue (q : List socket) : Option socket × List socket :=
  match q with
  | [] => (none, [])
  | s :: rest => (some s, rest)

/-- The records waiting in the accept queue, oldest first: the slots
`sq_tail, ..., sq_head - 1` taken modulo the capacity. -/
def queue_contents (ctx : mg_context) : List socket :=
  (List.range (ctx.sq_head - ctx.sq_tail).toNat).map
    (fun (i : Nat) => ctx.queue.getD ((ctx.sq_tail + (i : Int)) % ARRAY_SIZE ctx).toNat ⟨-1, 0, 0⟩)

/-! ## The worker -/

/-- The descriptor `INVALID_SOCKET`. -/
def INVALID_SOCKET : Int := -1

/-- What a worker does with a socket. -/
inductive worker_event where
  | removed (s : socket)
  | process_new_connection (s : socket)
  | close_socket_gracefully (s : socket)
  deriving DecidableEq, Repr

/-- The function `close_connection` of the source (lines 644-651): the calls
made and the connection left. -/
def close_connection (conn : mg_connection) : List worker_event × mg_connection :=
  let c1 := { conn with must_close := 1 }
  if c1.client.sock != INVALID_SOCKET then
    ([worker_event.close_socket_gracefully c1.client],
      { c1 with client := { c1.client with sock := INVALID_SOCKET } })
  else ([], c1)

/-- The loop of `callback_worker_thread` (lines 766-782), one pair of reads of
`stop_flag` per call of `consume_socket`; the loop ends when `consume_socket`
returns 0, and the run ends when the worker has to wait or the given reads
are used up. Returns the events in order, the context and the connection. -/
def worker_loop : List (Int × Int) → mg_context → mg_connection →
    List worker_event × mg_context × mg_connection
  | [], ctx, conn => ([], ctx, conn)
  | (stop_flag, stop_flag_ret) :: rest, ctx, conn =>
    match consume_socket stop_flag stop_flag_ret ctx conn.client with
    | none => ([], ctx, conn)
    | some (ret, ctx1, sp) =>
      let conn1 := { conn with client := sp }
      let ev0 := if consume_takes ctx then [worker_event.removed sp] else []
      if ret != 0 then
        let (ev1, conn2) := close_connection conn1
        let (ev2, ctx2, conn3) := worker_loop rest ctx1 conn2
        (ev0 ++ [worker_event.process_new_connection sp] ++ ev1 ++ ev2, ctx2, conn3)
      else (ev0, ctx1, conn1)

/-! ## The transport writer -/

/-- The constant `INT_MAX`. -/
def INT_MAX : Int := 2 ^ 31 - 1

/-- The world of one writer: the clock read by `time(NULL)`, the results of
the coming calls of `send` (a failure, -1, once they are used up), the values
of the coming reads of `stop_flag` (0 once they are used up) and the log of the
calls of `push` made so far: the time, the bytes asked and the bytes sent. -/
structure io_world where
  now : Int := 0
  sends : List Int := []
  stops : List Int := []
  pushed : List (Int × Int × Int) := []
  deriving DecidableEq, Repr

/-- The loop of `push` (lines 132-149) on a socket: `send` never reports more
than the `k` bytes asked. Returns `sent` and the results of `send` not used. -/
def push_loop : List Int → Int → Int → Int × List Int
  | [], _, sent => (sent, [])
  | r :: rest, len, sent =>
    if sent < len then
      let k := if len - sent > INT_MAX then INT_MAX else to_int (len - sent)
      let n := if r > k then k else r
      if n ≤ 0 then (sent, rest) else push_loop rest len (sent + n)
    else (sent, r :: rest)

/-- The function `push` of the source (lines 125-152) on a socket, logging the call. -/
def push (w : io_world) (len : Int) : Int × io_world :=
  let r := push_loop w.sends len 0
  (r.1, { w with sends := r.2, pushed := w.pushed ++ [(w.now, len, r.1)] })

/-- One read of `conn->ctx->stop_flag`. -/
def read_stop_flag (w : io_world) : Int × io_world :=
  match w.stops with
  | [] => (0, w)
  | s :: rest => (s, { w with stops := rest })

/-- The call `sleep(1)`: the clock advances by one second. -/
def sleep_1 (w : io_world) : io_world := { w with now := w.now + 1 }

/-- The while loop of `mg_write` (lines 193-205), at most `fuel` iterations. -/
def throttle_loop (len : Int) : Nat → Int → mg_connection → io_world →
    Int × mg_connection × io_world
  | 0, total, conn, w => (total, conn, w)
  | fuel + 1, total, conn, w =>
    if total < len then
      let (stop_flag, w1) := read_stop_flag w
      if stop_flag == 0 then
        let allowed := if conn.throttle > len - total then len - total else conn.throttle
        let (n, w2) := push w1 allowed
        if n != allowed then (total, conn, w2)
        else
          let w3 := sleep_1 w2
          let conn1 := { conn with last_throttle_bytes := allowed, last_throttle_time := w3.now }
          throttle_loop len fuel (total + n) conn1 w3
      else (total, conn, w1)
    else (total, conn, w)

/-- The function `mg_write` of the source (lines 176-212): the value returned,
the connection and the world it leaves. -/
def mg_write (conn : mg_connection) (w : io_world) (len : Int) :
    Int × mg_connection × io_world :=
  if conn.throttle > 0 then
    let conn1 :=
      if w.now != conn.last_throttle_time then
        { conn with last_throttle_time := w.now, last_throttle_bytes := 0 }
      else conn
    let allowed0 := conn1.throttle - conn1.last_throttle_bytes
    let allowed := if allowed0 > len then len else allowed0
    let (total, w1) := push w allowed
    if total == allowed then
      let conn2 := { conn1 with last_throttle_bytes := conn1.last_throttle_bytes + total }
      let r := throttle_loop len len.toNat total conn2 w1
      (to_int r.1, r.2.1, r.2.2)
    else (to_int total, conn1, w1)
  else
    let (total, w1) := push w len
    (to_int total, conn, w1)

/-- The bytes that the calls of `push` logged from index `start` on reported as sent. -/
def bytes_sent_since (w : io_world) (start : Nat) : Int :=
  ((w.pushed.drop start).map (fun e => e.2.2)).sum

/-- The bytes that the logged calls of `push` sent at clock value `t`. -/
def bytes_sent_at (w : io_world) (t : Int) : Int :=
  ((w.pushed.filter (fun e => e.1 == t)).map (fun e => e.2.2)).sum

/-! ## Concrete inputs -/

/-- A context with the given keep-alive setting and a queue of two slots. -/
def ctx_of (enable_keep_alive : String) : mg_context :=
  { enable_keep_alive := enable_keep_alive.toList
    queue := [⟨0, 0, 0⟩, ⟨0, 0, 0⟩], sq_head := 0, sq_tail := 0 }

/-- An environment whose `getreq` parses the request line `GET uri HTTP/version`
and whose handler answers with status 200. -/
def env_of (uri version : String) : request_env :=
  { getreq := fun c =>
      (true, [], { c with request_info := { uri := uri.toList, http_version := some version.toList } })
    response_error := fun status c => { c with status_code := status }
    dispatch_and_send_response := fun c => { c with status_code := 200 }
    call_user := fun _ c => c
    log_access := fun c => c
    stop_flag := 0 }

/-! ## The accept queue: invariant and the bounded FIFO list -/

/-- The invariant of the accept queue with `size` slots. -/
def queue_inv (size : Int) (ctx : mg_context) : Prop :=
  ARRAY_SIZE ctx = size ∧ 0 ≤ ctx.sq_tail ∧ ctx.sq_tail ≤ size ∧
    ctx.sq_tail ≤ ctx.sq_head ∧ ctx.sq_head - ctx.sq_tail ≤ size

/-- A run on a queue of two slots that fills it, empties it and rebases the
counters: three sockets stored, three removed. -/
def ops_rebase : List queue_op :=
  [queue_op.produce 0 ⟨7, 0, 1⟩, queue_op.produce 0 ⟨8, 0, 2⟩, queue_op.consume 0 0,
   queue_op.consume 0 0, queue_op.produce 0 ⟨9, 0, 3⟩, queue_op.consume 0 0]

/-- A run of the bounded FIFO list of the spec: the waiting records, the
records stored and the records removed. -/
structure fifo_run where
  queue : List socket
  stored : List socket
  removed : List socket
  deriving DecidableEq, Repr

/-- One step of the bounded FIFO list: `enqueue` for a call of `produce_socket`,
`dequeue` for a call of `consume_socket`. -/
def fifo_step (capacity : Nat) (st : fifo_run) : queue_op → fifo_run
  | queue_op.produce _ sp =>
    { st with
      queue := fifo_enqueue capacity st.queue sp
      stored := if st.queue.length < capacity then st.stored ++ [sp] else st.stored }
  | queue_op.consume _ _ =>
    match fifo_dequeue st.queue with
    | (some s, rest) => { st with queue := rest, removed := st.removed ++ [s] }
    | (none, _) => st

/-- The run of a list of calls on the bounded FIFO list, from the empty list. -/
def fifo_steps (capacity : Nat) (ops : List queue_op) : fifo_run :=
  ops.foldl (fifo_step capacity) { queue := [], stored := [], removed := [] }

/-- The ring buffer and the bounded FIFO list agree, and what was stored is
what was removed followed by what waits. -/
def queue_sim (r : queue_run) (st : fifo_run) : Prop :=
  queue_contents r.ctx = st.queue ∧ r.removed = st.removed ∧ r.stored = st.stored ∧
    r.removed ++ queue_contents r.ctx = r.stored

/-- A context whose queue of two slots holds the one accepted socket 7. -/
def ctx_one_socket : mg_context :=
  (queue_steps (queue_init [] 2) [queue_op.produce 0 ⟨7, 0, 1⟩]).ctx

/-! ## Socket timeouts -/

/-- The C `struct timeval`. -/
structure timeval where
  tv_sec : Int
  tv_usec : Int
  deriving DecidableEq, Repr

/-- The socket options set by `set_sock_timeout`. -/
inductive sockopt where
  | SO_RCVTIMEO
  | SO_SNDTIMEO
  deriving DecidableEq, Repr

/-- Lines 821-822 of `set_sock_timeout`: the timeval built from the
milliseconds. The division and the remainder are those of C (towards zero);
the product `milliseconds * 1000` is an `int`. -/
def sock_timeval (milliseconds : Int) : timeval :=
  { tv_sec := Int.tdiv milliseconds 1000
    tv_usec := Int.tmod (to_int (milliseconds * 1000)) 1000000 }

/-- The function `set_sock_timeout` of the source (lines 819-825):
`rcv_result` and `snd_result` are what the two calls of `setsockopt` return.
It gives the calls made, in order, and the value returned. -/
def set_sock_timeout (rcv_result snd_result : Int) (milliseconds : Int) :
    List (sockopt × timeval) × Int :=
  let t := sock_timeval milliseconds
  if rcv_result != 0 then ([(sockopt.SO_RCVTIMEO, t)], 1)
  else ([(sockopt.SO_RCVTIMEO, t), (sockopt.SO_SNDTIMEO, t)], if snd_result != 0 then 1 else 0)

/-! ## URL decoding -/

/-- The C library `isdigit`. -/
def isdigit (c : Char) : Bool := decide (48 ≤ c.toNat) && decide (c.toNat ≤ 57)

/-- The C library `isxdigit`. -/
def isxdigit (c : Char) : Bool :=
  isdigit c || (decide (97 ≤ c.toNat) && decide (c.toNat ≤ 102)) ||
    (decide (65 ≤ c.toNat) && decide (c.toNat ≤ 70))

/-- The macro `HEXTOI` of `mg_url_decode`: `isdigit(x) ? x - '0' : x - 'W'`. It
is applied to lower-cased hexadecimal digits only, where neither difference is
negative. -/
def HEXTOI (x : Char) : Nat := if isdigit x then x.toNat - 48 else x.toNat - 87

/-- The cast `(char)` of a non-negative value: its low 8 bits. -/
def to_char (x : Nat) : Char := Char.ofNat (x % 256)

/-- The for loop of `mg_url_decode` (lines 219-232), at most `fuel` iterations,
from the cursors `i` and `j`: it gives the cursors and the destination it
leaves. -/
def mg_url_decode_loop (src : List Char) (src_len dst_len : Int) (is_form_url_encoded : Int) :
    Nat → Nat → Nat → List Char → Nat × Nat × List Char
  | 0, i, j, dst => (i, j, dst)
  | fuel + 1, i, j, dst =>
    if (i : Int) < src_len ∧ (j : Int) < dst_len - 1 then
      if cstr_at src i = '%' ∧ (i : Int) < src_len - 2 ∧
          isxdigit (cstr_at src (i + 1)) = true ∧ isxdigit (cstr_at src (i + 2)) = true then
        let a := lowercase (cstr_at src (i + 1))
        let b := lowercase (cstr_at src (i + 2))
        mg_url_decode_loop src src_len dst_len is_form_url_encoded fuel (i + 2 + 1) (j + 1)
          (dst.set j (to_char ((HEXTOI a <<< 4) ||| HEXTOI b)))
      else if is_form_url_encoded ≠ 0 ∧ cstr_at src i = '+' then
        mg_url_decode_loop src src_len dst_len is_form_url_encoded fuel (i + 1) (j + 1)
          (dst.set j ' ')
      else
        mg_url_decode_loop src src_len dst_len is_form_url_encoded fuel (i + 1) (j + 1)
          (dst.set j (cstr_at src i))
    else (i, j, dst)

/-- The function `mg_url_decode` of the source (lines 214-237): the value
returned and the destination memory it leaves. `src` and `dst` are the memory
at the two pointers. -/
def mg_url_decode (src : List Char) (src_len : Int) (dst : List Char) (dst_len : Int)
    (is_form_url_encoded : Int) : Int × List Char :=
  let r := mg_url_decode_loop src src_len dst_len is_form_url_encoded src_len.toNat 0 0 dst
  (if (r.1 : Int) ≥ src_len then (r.2.1 : Int) else -1, r.2.2.set r.2.1 (Char.ofNat 0))

/-- The hexadecimal digits, upper or lower case. -/
def hex_digits : List Char := "0123456789abcdefABCDEF".toList

/-- The value of a hexadecimal digit, upper or lower case. -/
def hex_value (c : Char) : Nat := "0123456789abcdef".toList.indexOf (lowercase c)

/-- The reference URL decoder, in the words of the spec: the source is scanned
left to right; a `%` followed by two hexadecimal digits becomes the byte with
that value, a `+` becomes a space in form-url-encoded mode, every other
character is copied. -/
def url_decode_ref (form : Bool) : List Char → List Char
  | [] => []
  | c :: rest@(a :: b :: rest2) =>
    if c = '%' ∧ a ∈ hex_digits ∧ b ∈ hex_digits then
      Char.ofNat (16 * hex_value a + hex_value b) :: url_decode_ref form rest2
    else if form = true ∧ c = '+' then ' ' :: url_decode_ref form rest
    else c :: url_decode_ref form rest
  | c :: rest =>
    if form = true ∧ c = '+' then ' ' :: url_decode_ref form rest
    else c :: url_decode_ref form rest

/-! ## URL encoding -/

/-- The C library `isalnum` on an unsigned char, in the C locale. -/
def isalnum (c : Char) : Bool := c.isAlphanum

/-- The C library test `strchr(s, c) != NULL`: the character is found in the
string, its terminating NUL included. -/
def strchr_found (s : List Char) (c : Char) : Bool := decide (c ∈ s) || c == Char.ofNat 0

/-- The table `dont_escape` of `mg_url_encode`. -/
def dont_escape : List Char := "._-$,;~()".toList

/-- The table `hex` of `mg_url_encode`. -/
def hex : List Char := "0123456789abcdef".toList

/-- The for loop of `mg_url_encode` (lines 331-341), at most `fuel` iterations:
`s` and `d` are the offsets of the pointers `src` and `dst` from their start,
`end` is at offset `dst_len - 1`. It gives the offsets and the destination it
leaves. -/
def mg_url_encode_loop (src : List Char) (dst_len : Int) :
    Nat → Nat → Nat → List Char → Nat × Nat × List Char
  | 0, s, d, dst => (s, d, dst)
  | fuel + 1, s, d, dst =>
    if cstr_at src s ≠ Char.ofNat 0 ∧ (d : Int) < dst_len - 1 then
      if (isalnum (cstr_at src s) || strchr_found dont_escape (cstr_at src s)) = true then
        mg_url_encode_loop src dst_len fuel (s + 1) (d + 1) (dst.set d (cstr_at src s))
      else if (d : Int) + 2 < dst_len - 1 then
        mg_url_encode_loop src dst_len fuel (s + 1) (d + 2 + 1)
          (((dst.set d '%').set (d + 1) (cstr_at hex ((cstr_at src s).toNat >>> 4))).set (d + 2)
            (cstr_at hex ((cstr_at src s).toNat &&& 0xf)))
      else mg_url_encode_loop src dst_len fuel (s + 1) (d + 1) dst
    else (s, d, dst)

/-- The function `mg_url_encode` of the source (lines 326-344): the destination
memory it leaves. `src` is the NUL-terminated source string, `dst` the memory
at the destination pointer. -/
def mg_url_encode (src : List Char) (dst : List Char) (dst_len : Int) : List Char :=
  let r := mg_url_encode_loop src dst_len src.length 0 0 dst
  r.2.2.set r.2.1 (Char.ofNat 0)

/-- The characters that the spec keeps: ASCII alphanumerics and `._-$,;~()`. -/
def url_safe (c : Char) : Bool := c.isAlphanum || decide (c ∈ "._-$,;~()".toList)

/-- The reference URL encoder, in the words of the spec: a kept character is
copied, every other one becomes `%` and the two lowercase hexadecimal digits of
`b >> 4` and `b & 0xf`. -/
def url_encode_ref : List Char → List Char
  | [] => []
  | c :: rest =>
    (if url_safe c = true then [c]
     else ['%', "0123456789abcdef".toList.getD (c.toNat >>> 4) (Char.ofNat 0),
           "0123456789abcdef".toList.getD (c.toNat &&& 0xf) (Char.ofNat 0)]) ++
      url_encode_ref rest

/-- The string held by a NUL-terminated buffer: the characters before the
first NUL. -/
def c_string (mem : List Char) : List Char := mem.takeWhile (fun c => c != Char.ofNat 0)

/-! ## Form variables and cookies -/

/-- Modelled from the spec: `mg_strncasecmp` is called by `mg_get_var` but its
text is not in the source; like `mg_strcasecmp` it compares "case-insensitively",
at most `n` characters. -/
def mg_strncasecmp (s1 s2 : List Char) : Nat → Int
  | 0 => 0
  | n + 1 =>
    if lowercase (cstr_at s1 0) ≠ lowercase (cstr_at s2 0) then
      ((lowercase (cstr_at s1 0)).toNat : Int) - ((lowercase (cstr_at s2 0)).toNat : Int)
    else if cstr_at s1 0 = Char.ofNat 0 then 0
    else mg_strncasecmp s1.tail s2.tail n

/-- The C library `memchr(mem, c, n)`: the offset of the first `c` among the
first `n` characters, `none` for NULL. -/
def memchr (mem : List Char) (c : Char) (n : Nat) : Option Nat :=
  if (mem.take n).indexOf c < (mem.take n).length then some ((mem.take n).indexOf c) else none

/-- The test of lines 258-259 of `mg_get_var`: a pair named `name` starts at
offset `p` of the data. -/
def var_found (data : List Char) (name : List Char) (p : Nat) : Bool :=
  (p == 0 || cstr_at data (p - 1) == '&') && cstr_at data (p + name.length) == '=' &&
    mg_strncasecmp name (data.drop p) name.length == 0

/-- The search loop of `mg_get_var` (line 257), at most `fuel` iterations from
offset `p`: the offset of the first pair found, if any. -/
def mg_get_var_loop (data : List Char) (data_len : Nat) (name : List Char) :
    Nat → Nat → Option Nat
  | 0, _ => none
  | fuel + 1, p =>
    if p + name.length < data_len then
      if var_found data name p = true then some p
      else mg_get_var_loop data data_len name fuel (p + 1)
    else none

/-- The function `mg_get_var` of the source (lines 239-284): the value returned
and the destination memory it leaves. A NULL pointer is `none`; `name` is a
NUL-terminated string. The sizes `(size_t)(s - p)` and `dst_len` are `size_t`
and `mg_url_decode` takes them as `int`: line 272 narrows both. -/
def mg_get_var (data : Option (List Char)) (data_len : Nat) (name : Option (List Char))
    (dst : Option (List Char)) (dst_len : Nat) : Int × Option (List Char) :=
  match dst with
  | none => (-2, none)
  | some d =>
    if dst_len = 0 then (-2, some d)
    else
      match data, name with
      | some data, some name =>
        if data_len = 0 then (-1, some (d.set 0 (Char.ofNat 0)))
        else
          match mg_get_var_loop data data_len name data_len 0 with
          | none => (-1, some (d.set 0 (Char.ofNat 0)))
          | some p =>
            let p1 := p + name.length + 1
            let s := match memchr (data.drop p1) '&' (data_len - p1) with
              | some k => p1 + k
              | none => data_len
            let r := mg_url_decode (data.drop p1) (to_int (to_size_t ((s - p1 : Nat) : Int)))
              (d.set 0 (Char.ofNat 0)) (to_int (to_size_t (dst_len : Int))) 1
            (if r.1 = -1 then -2 else r.1, some r.2)
      | _, _ => (-1, some (d.set 0 (Char.ofNat 0)))

/-- A pair whose key is `name`, ignoring case, starts at offset `p` of the
data: `p` is the start of the data or follows a `&`, the `name.length`
characters from `p` are those of `name` up to case, and a `=` follows them. -/
def var_at (data : List Char) (name : List Char) (p : Nat) : Prop :=
  (p = 0 ∨ cstr_at data (p - 1) = '&') ∧ p + name.length < data.length ∧
    cstr_at data (p + name.length) = '=' ∧
    ((data.drop p).take name.length).map lowercase = name.map lowercase

/-- The value of the pair whose value starts at offset `p1` of the data: the
characters up to the next `&` or the end of the data. -/
def var_value (data : List Char) (p1 : Nat) : List Char :=
  (data.drop p1).takeWhile (fun c => c != '&')

/-- Modelled from the spec: `mg_strcasestr` is called by `mg_get_cookie` but its
text is not in the source; the spec says the cookie name is found by a
"case-insensitive name match". It gives the offset of the first occurrence of
`small` in `big`, ignoring case, `none` for NULL. -/
def mg_strcasestr (big small : List Char) : Option Nat :=
  if small.length ≤ big.length then
    (List.range (big.length - small.length + 1)).find?
      (fun i => mg_strncasecmp (big.drop i) small small.length == 0)
  else none

/-- The C library `strchr(s, c)` for a character other than NUL: the offset of
its first occurrence in the string, `none` for NULL. -/
def strchr (s : List Char) (c : Char) : Option Nat :=
  if s.indexOf c < s.length then some (s.indexOf c) else none

/-- Modelled from the spec: `mg_strlcpy` is called by `mg_get_cookie` but its
text is not in the source; the spec says the value is copied "NUL-terminated".
It copies at most `n - 1` characters of the string `src` to the start of `dst`
and writes a NUL after them. -/
def mg_strlcpy (dst src : List Char) (n : Nat) : List Char :=
  (c_string src).take (n - 1) ++ Char.ofNat 0 ::
    dst.drop (min (c_string src).length (n - 1) + 1)

/-- The for loop of `mg_get_cookie` (lines 301-320), at most `fuel` iterations,
from the offset `s` into the header: the value of `len` and the destination it
leaves, `none` when the loop has not ended after `fuel` iterations. Every
iteration that does not end the loop moves `s` forward by `name_len`: with an
empty name it stays where it is and the loop of the code never ends. -/
def mg_get_cookie_loop (hdr name dst : List Char) (dst_size : Nat) :
    Nat → Nat → Option (Int × List Char)
  | 0, _ => none
  | fuel + 1, s0 =>
    match mg_strcasestr (hdr.drop s0) name with
    | none => some (-1, dst)
    | some k =>
      let s := s0 + k
      if cstr_at hdr (s + name.length) = '=' then
        let s1 := s + name.length + 1
        let p0 := match strchr (hdr.drop s1) ' ' with
          | some j => s1 + j
          | none => hdr.length
        let p1 := if cstr_at hdr (p0 - 1) = ';' then p0 - 1 else p0
        let quoted := decide (cstr_at hdr s1 = '"') && decide (cstr_at hdr (p1 - 1) = '"') &&
          decide (p1 > s1 + 1)
        let s2 := if quoted then s1 + 1 else s1
        let p2 := if quoted then p1 - 1 else p1
        if p2 - s2 < dst_size then
          some (((p2 - s2 : Nat) : Int), mg_strlcpy dst (hdr.drop s2) (p2 - s2 + 1))
        else some (-3, dst)
      else mg_get_cookie_loop hdr name dst dst_size fuel (s + name.length)

/-- The function `mg_get_cookie` of the source (lines 286-323): the value
returned and the destination memory it leaves, `none` when it does not return.
A NULL pointer is `none`. With a name that is not empty the loop ends within
`hdr.length + 1` iterations, each but the last moving `s` forward. -/
def mg_get_cookie (cookie_header var_name : Option (List Char)) (dst : Option (List Char))
    (dst_size : Nat) : Option (Int × Option (List Char)) :=
  match dst with
  | none => some (-2, none)
  | some d =>
    if dst_size = 0 then some (-2, some d)
    else
      match var_name, cookie_header with
      | some name, some hdr =>
        (mg_get_cookie_loop hdr name (d.set 0 (Char.ofNat 0)) dst_size (hdr.length + 1) 0).map
          (fun r => (r.1, some r.2))
      | _, _ => some (-1, some (d.set 0 (Char.ofNat 0)))

/-! ## Listening ports -/

/-- The C library `isspace`, in the C locale. -/
def isspace (c : Char) : Bool :=
  c == ' ' || (decide (9 ≤ c.toNat) && decide (c.toNat ≤ 13))

/-- The value of a decimal digit. -/
def digit_value (c : Char) : Nat := c.toNat - 48

/-- The decimal digits at the start of the input: their value on top of `acc`
and the input left. -/
def scan_digits : List Char → Nat → Nat × List Char
  | [], acc => (acc, [])
  | c :: cs, acc =>
    if isdigit c = true then scan_digits cs (10 * acc + digit_value c) else (acc, c :: cs)

/-- The conversion `%u` of the C library `sscanf`: white space is skipped, an
optional sign and at least one decimal digit are read as by `strtoul` (a
value above `ULONG_MAX` is read as `ULONG_MAX` whatever the sign, otherwise a
minus sign negates it modulo 2^64), and the value is stored in an
`unsigned int`. It gives the value stored and the input
left, `none` when the conversion fails. -/
def scan_u (s : List Char) : Option (Nat × List Char) :=
  let s1 := s.dropWhile isspace
  let neg := decide (s1.head? = some '-')
  let s2 := if s1.head? = some '-' ∨ s1.head? = some '+' then s1.tail else s1
  if (s2.head?.map isdigit) = some true then
    let r := scan_digits s2 0
    let ul := if r.1 > 2 ^ 64 - 1 then 2 ^ 64 - 1
      else if neg then (2 ^ 64 - r.1) % 2 ^ 64 else r.1
    some (ul % 2 ^ 32, r.2)
  else none

/-- A literal character of a `sscanf` format: the input left after it, `none`
when the input does not start with it. -/
def scan_char (c : Char) (s : List Char) : Option (List Char) :=
  match s with
  | x :: rest => if x = c then some rest else none
  | [] => none

/-- The call `sscanf(ptr, "%u.%u.%u.%u:%u%n", &a, &b, &c, &d, &port, &len)`
when it returns 5: the five values and `len`, the number of characters read. -/
def sscanf_ip_port (ptr : List Char) : Option (Nat × Nat × Nat × Nat × Nat × Nat) := do
  let (a, r1) ← scan_u ptr
  let r2 ← scan_char '.' r1
  let (b, r3) ← scan_u r2
  let r4 ← scan_char '.' r3
  let (c, r5) ← scan_u r4
  let r6 ← scan_char '.' r5
  let (d, r7) ← scan_u r6
  let r8 ← scan_char ':' r7
  let (port, r9) ← scan_u r8
  pure (a, b, c, d, port, ptr.length - r9.length)

/-- The call `sscanf(ptr, "%u%n", &port, &len)` when it returns 1: the value and
`len`. -/
def sscanf_port (ptr : List Char) : Option (Nat × Nat) := do
  let (port, r1) ← scan_u ptr
  pure (port, ptr.length - r1.length)

/-- The function `is_valid_port` of the source (lines 518-520). -/
def is_valid_port (port : Nat) : Bool := decide (port > 0) && decide (port < 0xffff)

/-- The fields of `so->lsa.sin` set by `parse_port_string`, in host byte order:
`sin_addr` is the argument of `htonl`, `sin_port` the argument of `htons`. -/
structure sockaddr_in where
  sin_addr : Nat
  sin_port : Nat
  deriving DecidableEq, Repr

/-- The function `parse_port_string` of the source (lines 525-549): the value
returned and the socket address it leaves. The shifts are those of
`unsigned int`. -/
def parse_port_string (ptr : List Char) : Bool × sockaddr_in :=
  match sscanf_ip_port ptr with
  | some (a, b, c, d, port, len) =>
    (is_valid_port port && cstr_at ptr len == Char.ofNat 0,
     { sin_addr := ((a <<< 24) % 2 ^ 32) ||| ((b <<< 16) % 2 ^ 32) ||| ((c <<< 8) % 2 ^ 32) ||| d
       sin_port := port % 2 ^ 16 })
  | none =>
    match sscanf_port ptr with
    | some (port, len) =>
      (is_valid_port port && cstr_at ptr len == Char.ofNat 0,
       { sin_addr := 0, sin_port := port % 2 ^ 16 })
    | none =>
      (is_valid_port 0 && cstr_at ptr 0 == Char.ofNat 0, { sin_addr := 0, sin_port := 0 })

/-- The value of a string of decimal digits. -/
def decimal_value (ds : List Char) : Nat := ds.foldl (fun acc c => 10 * acc + digit_value c) 0

/-- A decimal number of the port grammar: at least one character, all digits. -/
def is_decimal (ds : List Char) : Prop := ds ≠ [] ∧ ∀ c ∈ ds, isdigit c = true

/-- The IPv4 address `a.b.c.d` as a number. -/
def ipv4 (a b c d : Nat) : Nat := a * 2 ^ 24 + b * 2 ^ 16 + c * 2 ^ 8 + d

/-! ## Reading an upload: `left_to_read`, `pull`, `mg_upload` -/

/-- The function `left_to_read` of the source (lines 75-77), in `int64_t`. -/
def left_to_read (conn : mg_connection) : Int :=
  wrap64 (wrap64 (conn.content_len + conn.request_len) - conn.num_bytes_read)

/-- The world of one reader: the results of the coming calls of `recv` (0, the
peer has closed, once they are used up) and the values of the coming reads of
`stop_flag` (0 once they are used up). -/
structure rx_world where
  recvs : List Int := []
  stops : List Int := []
  deriving DecidableEq, Repr

/-- The function `pull` of the source (lines 156-173) on a socket (`fp` is
NULL): `recv` never reports more than the `len` bytes asked. Returns the value
returned, the connection and the world it leaves. -/
def pull (conn : mg_connection) (w : rx_world) (len : Int) : Int × mg_connection × rx_world :=
  if len ≤ 0 then (0, conn, w)
  else
    let r := w.recvs.headD 0
    let nread := if r > len then len else r
    let conn1 :=
      if nread > 0 then { conn with num_bytes_read := wrap64 (conn.num_bytes_read + nread) }
      else conn
    let stop_flag := w.stops.headD 0
    (if stop_flag != 0 then -1 else nread, conn1, { recvs := w.recvs.tail, stops := w.stops.tail })

/-- The value of `to_read` computed at lines 424-427 of `mg_upload`, and again
at lines 496-499: `buf_len - len`, lowered to `left_to_read(conn)`. -/
def upload_to_read (conn : mg_connection) (buf_len len : Int) : Int :=
  let to_read := to_int (buf_len - len)
  if to_read > left_to_read conn then to_int (left_to_read conn) else to_read

/-- The loop of lines 428-431 of `mg_upload`,
`while (len < buf_len && (n = pull(NULL, conn, buf + len, to_read)) > 0) len += n;`,
at most `fuel` iterations. Returns `len`, the connection, the world and, for
each call of `pull` in order, the free space `buf_len - len` of the buffer at
the call, the value of `left_to_read(conn)` at the call and the count asked. -/
def pull_headers (buf_len to_read : Int) : Nat → Int → mg_connection → rx_world →
    List (Int × Int × Int) → Int × mg_connection × rx_world × List (Int × Int × Int)
  | 0, len, conn, w, calls => (len, conn, w, calls)
  | fuel + 1, len, conn, w, calls =>
    if len < buf_len then
      let r := pull conn w to_read
      let calls1 := calls ++ [(buf_len - len, left_to_read conn, to_read)]
      if r.1 > 0 then pull_headers buf_len to_read fuel (to_int (len + r.1)) r.2.1 r.2.2 calls1
      else (len, r.2.1, r.2.2, calls1)
    else (len, conn, w, calls)

/-- Lines 417-431 of `mg_upload`: the set-up of `buf_len` and `len` and the
first iteration of `for (;;)` up to the end of the loop that pulls in the
headers. `none` when the assertion `len >= 0 && len <= buf_len` fails. A call
of `pull` that returns more than 0 uses up one result of `recv`, so
`recvs.length + 1` iterations are enough. -/
def mg_upload_pull_headers (conn : mg_connection) (w : rx_world) :
    Option (Int × mg_connection × rx_world × List (Int × Int × Int)) :=
  let buf_len := to_int (conn.buf_size - conn.request_len)
  let len := to_int (conn.data_len - conn.request_len)
  if len ≥ 0 ∧ len ≤ buf_len then
    some (pull_headers buf_len (upload_to_read conn buf_len len) (w.recvs.length + 1) len conn w [])
  else none

/-! # Theorems -/

/-! ## Lemmas on C strings -/

theorem char_toNat_injective {a b : Char} (h : a.toNat = b.toNat) : a = b := by
  have := congrArg Char.ofNat h
  simpa [Char.ofNat_toNat] using this

theorem char_toNat_eq_zero {a : Char} (h : (a.toNat : Int) = 0) : a = Char.ofNat 0 := by
  apply char_toNat_injective
  have h0 : a.toNat = 0 := by exact_mod_cast h
  rw [h0]
  decide

theorem lowercase_ne_nul {c : Char} (h : c ≠ Char.ofNat 0) : lowercase c ≠ Char.ofNat 0 := by
  unfold lowercase Char.toLower
  simp only
  split
  · rename_i hn
    obtain ⟨h1, h2⟩ := hn
    generalize c.toNat = n at h1 h2
    interval_cases n <;> decide
  · exact h

theorem nul_free_cons {a : Char} {s : List Char} (h : nul_free (a :: s)) :
    a ≠ Char.ofNat 0 ∧ nul_free s :=
  ⟨h a (List.mem_cons_self a s), fun c hc => h c (List.mem_cons_of_mem a hc)⟩

theorem strcmp_eq_zero_iff : ∀ (s t : List Char), nul_free s → nul_free t →
    (strcmp s t = 0 ↔ s = t)
  | [], [], _, _ => by simp [strcmp]
  | [], b :: t, _, ht => by
    have hb := (nul_free_cons ht).1
    simp only [strcmp, zero_sub, neg_eq_zero]
    constructor
    · intro h; exact absurd (char_toNat_eq_zero h) hb
    · intro h; cases h
  | a :: s, [], hs, _ => by
    have ha := (nul_free_cons hs).1
    simp only [strcmp]
    constructor
    · intro h; exact absurd (char_toNat_eq_zero h) ha
    · intro h; cases h
  | a :: s, b :: t, hs, ht => by
    have ha := (nul_free_cons hs).1
    have ih := strcmp_eq_zero_iff s t (nul_free_cons hs).2 (nul_free_cons ht).2
    unfold strcmp
    by_cases hab : a = b
    · subst hab
      simp [ha, ih]
    · simp only [ne_eq, hab, not_false_eq_true, if_true]
      constructor
      · intro h
        exact absurd (char_toNat_injective (by omega)) hab
      · intro h
        exact absurd (List.cons.inj h).1 hab

theorem mg_strcasecmp_eq_zero_iff : ∀ (s t : List Char), nul_free s → nul_free t →
    (mg_strcasecmp s t = 0 ↔ s.map lowercase = t.map lowercase)
  | [], [], _, _ => by simp [mg_strcasecmp]
  | [], b :: t, _, ht => by
    have hb := lowercase_ne_nul (nul_free_cons ht).1
    simp only [mg_strcasecmp, zero_sub, neg_eq_zero]
    constructor
    · intro h; exact absurd (char_toNat_eq_zero h) hb
    · intro h; simp at h
  | a :: s, [], hs, _ => by
    have ha := lowercase_ne_nul (nul_free_cons hs).1
    simp only [mg_strcasecmp]
    constructor
    · intro h; exact absurd (char_toNat_eq_zero h) ha
    · intro h; simp at h
  | a :: s, b :: t, hs, ht => by
    have ha := (nul_free_cons hs).1
    have ih := mg_strcasecmp_eq_zero_iff s t (nul_free_cons hs).2 (nul_free_cons ht).2
    unfold mg_strcasecmp
    by_cases hab : lowercase a = lowercase b
    · simp [hab, ha, ih]
    · simp only [ne_eq, hab, not_false_eq_true, if_true]
      constructor
      · intro h
        exact absurd (char_toNat_injective (by omega)) hab
      · intro h
        simp only [List.map_cons, List.cons.injEq] at h
        exact absurd h.1 hab

theorem is_valid_uri_iff (uri : List Char) (h : nul_free uri) :
    is_valid_uri uri = true ↔ (uri = ['*'] ∨ uri.head? = some '/') := by
  unfold is_valid_uri cstr_at
  match uri, h with
  | [], _ => simp
  | [a], _ =>
    simp only [List.getD_cons_zero, List.head?_cons, Option.some.injEq, List.cons.injEq,
      and_true, Bool.or_eq_true, beq_iff_eq, Bool.and_eq_true]
    simp [List.getD]
    tauto
  | a :: b :: r, h =>
    have hb : b ≠ Char.ofNat 0 := (nul_free_cons (nul_free_cons h).2).1
    simp [List.getD, hb]

/-! ## The keep-alive decision -/

/-- C1: at the end of a request iteration of `process_new_connection`, the
flag `keep_alive` is set, and the loop runs another iteration on the compacted
connection, if and only if `stop_flag == 0`, keep-alive is enabled globally
(`keep_alive_enabled`, the setting compared with "yes" by `strcmp`),
`content_len >= 0` and `should_keep_alive(conn)` holds, all read on the
connection before the buffer is compacted; otherwise the loop ends with the
compacted connection. -/
theorem request_loop_keep_alive (ctx : mg_context) (env : request_env)
    (rest : List request_env) (conn : mg_connection) :
    (keep_alive ctx (strcmp ctx.enable_keep_alive "yes".toList == 0) env.stop_flag
        (serve_request env conn).2.2 = true ↔
      env.stop_flag = 0 ∧ strcmp ctx.enable_keep_alive "yes".toList = 0 ∧
        (serve_request env conn).2.2.content_len ≥ 0 ∧
        should_keep_alive ctx (serve_request env conn).2.2 ≠ 0) ∧
    request_loop ctx (strcmp ctx.enable_keep_alive "yes".toList == 0) (env :: rest) conn =
      if env.stop_flag = 0 ∧ strcmp ctx.enable_keep_alive "yes".toList = 0 ∧
          (serve_request env conn).2.2.content_len ≥ 0 ∧
          should_keep_alive ctx (serve_request env conn).2.2 ≠ 0 then
        ((serve_request env conn).1 ++
          (request_loop ctx (strcmp ctx.enable_keep_alive "yes".toList == 0) rest
            (compact (serve_request env conn).2.2)).1,
         (request_loop ctx (strcmp ctx.enable_keep_alive "yes".toList == 0) rest
            (compact (serve_request env conn).2.2)).2)
      else ((serve_request env conn).1, compact (serve_request env conn).2.2) := by
  simp only [request_loop, keep_alive]
  by_cases h1 : env.stop_flag = 0 <;>
  by_cases h2 : strcmp ctx.enable_keep_alive "yes".toList = 0 <;>
  by_cases h3 : (serve_request env conn).2.2.content_len ≥ 0 <;>
  by_cases h4 : should_keep_alive ctx (serve_request env conn).2.2 = 0 <;>
  simp [h1, h2, h3, h4]

/-! ## The truth table of should_keep_alive -/

/-- C2, as stated, fails: with the setting "yes", `must_close` clear, a status
other than 401, no `Connection` header and no HTTP version parsed (so the
version is not "1.1"), `should_keep_alive` returns 1. -/
theorem should_keep_alive_no_version :
    (ctx_of "yes").enable_keep_alive = "yes".toList ∧
    ({ status_code := 200 } : mg_connection).must_close = 0 ∧
    ({ status_code := 200 } : mg_connection).status_code ≠ 401 ∧
    mg_get_header { status_code := 200 } "Connection".toList = none ∧
    ({ status_code := 200 } : mg_connection).request_info.http_version ≠ some "1.1".toList ∧
    should_keep_alive (ctx_of "yes") { status_code := 200 } = 1 := by
  decide

/-- The value of `should_keep_alive`, with the comparisons of the code
(`mg_strcasecmp` for the setting and the header, `strcmp` for the version)
written as equalities of strings. -/
theorem should_keep_alive_eq (ctx : mg_context) (conn : mg_connection)
    (hcfg : nul_free ctx.enable_keep_alive)
    (hhdr : ∀ h, mg_get_header conn "Connection".toList = some h → nul_free h)
    (hver : ∀ v, conn.request_info.http_version = some v → nul_free v) :
    should_keep_alive ctx conn =
      if conn.must_close ≠ 0 ∨ conn.status_code = 401 ∨
          ctx.enable_keep_alive.map lowercase ≠ "yes".toList then 0
      else match mg_get_header conn "Connection".toList with
        | some h => if h.map lowercase = "keep-alive".toList then 1 else 0
        | none =>
          match conn.request_info.http_version with
          | none => 1
          | some v => if v = "1.1".toList then 1 else 0 := by
  have hyes : nul_free "yes".toList := by intro c hc; revert c; decide
  have hka : nul_free "keep-alive".toList := by intro c hc; revert c; decide
  have h11 : nul_free "1.1".toList := by intro c hc; revert c; decide
  have lyes : "yes".toList.map lowercase = "yes".toList := by decide
  have lka : "keep-alive".toList.map lowercase = "keep-alive".toList := by decide
  have e1 := mg_strcasecmp_eq_zero_iff ctx.enable_keep_alive "yes".toList hcfg hyes
  have e2 := fun h hh =>
    mg_strcasecmp_eq_zero_iff h "keep-alive".toList (hhdr h hh) hka
  have e3 := fun v hv => strcmp_eq_zero_iff v "1.1".toList (hver v hv) h11
  rw [lyes] at e1
  rw [lka] at e2
  clear hyes hka h11 lyes lka hhdr hver
  unfold should_keep_alive
  simp only []
  generalize "yes".toList = yes at e1 ⊢
  generalize "keep-alive".toList = ka at e2 ⊢
  generalize "1.1".toList = v11 at e3 ⊢
  cases hh : mg_get_header conn "Connection".toList with
  | some h =>
    have e2 := e2 h hh
    by_cases c1 : conn.must_close = 0 <;> by_cases c2 : conn.status_code = 401 <;>
    by_cases c3 : mg_strcasecmp ctx.enable_keep_alive yes = 0 <;>
    by_cases c4 : mg_strcasecmp h ka = 0 <;>
    simp [c1, c2, c3, c4, ← e1, ← e2]
  | none =>
    cases hv : conn.request_info.http_version with
    | none =>
      by_cases c1 : conn.must_close = 0 <;> by_cases c2 : conn.status_code = 401 <;>
      by_cases c3 : mg_strcasecmp ctx.enable_keep_alive yes = 0 <;>
      simp [c1, c2, c3, ← e1]
    | some v =>
      have e3 := e3 v hv
      by_cases c1 : conn.must_close = 0 <;> by_cases c2 : conn.status_code = 401 <;>
      by_cases c3 : mg_strcasecmp ctx.enable_keep_alive yes = 0 <;>
      by_cases c4 : strcmp v v11 = 0 <;>
      simp [c1, c2, c3, c4, ← e1, ← e3]

/-- C2, amended: the switch is on for the setting "yes" and off for a setting
that differs from "yes" also when case is ignored. `should_keep_alive` returns
0 if `must_close` is set, the status is 401 or the switch is off; otherwise,
with a `Connection` header, it returns 1 exactly when the value is "keep-alive"
ignoring case; otherwise, without the header, it returns 1 when no version was
parsed or the version is exactly "1.1", and 0 for every other version. -/
theorem should_keep_alive_table (ctx : mg_context) (conn : mg_connection)
    (hcfg : nul_free ctx.enable_keep_alive)
    (hsw : ctx.enable_keep_alive = "yes".toList ∨
      ctx.enable_keep_alive.map lowercase ≠ "yes".toList)
    (hhdr : ∀ h, mg_get_header conn "Connection".toList = some h → nul_free h)
    (hver : ∀ v, conn.request_info.http_version = some v → nul_free v) :
    should_keep_alive ctx conn =
      if conn.must_close ≠ 0 ∨ conn.status_code = 401 ∨
          ctx.enable_keep_alive ≠ "yes".toList then 0
      else match mg_get_header conn "Connection".toList with
        | some h => if h.map lowercase = "keep-alive".toList then 1 else 0
        | none =>
          match conn.request_info.http_version with
          | none => 1
          | some v => if v = "1.1".toList then 1 else 0 := by
  have hiff : ctx.enable_keep_alive.map lowercase ≠ "yes".toList ↔
      ctx.enable_keep_alive ≠ "yes".toList := by
    rcases hsw with h | h
    · rw [h]; decide
    · exact ⟨fun _ he => h (by rw [he]; decide), fun _ => h⟩
  rw [should_keep_alive_eq ctx conn hcfg hhdr hver]
  simp only [hiff]

/-- The truth table of `should_keep_alive` at a request of HTTP 1.0 that asks
for "Keep-Alive", with the setting "yes". -/
theorem should_keep_alive_table_witness :
    should_keep_alive (ctx_of "yes")
        { request_info := { http_version := some "1.0".toList
                            http_headers := [("connection".toList, "Keep-Alive".toList)] } } =
      1 :=
  should_keep_alive_table (ctx_of "yes")
    { request_info := { http_version := some "1.0".toList
                        http_headers := [("connection".toList, "Keep-Alive".toList)] } }
    (by intro c hc; revert c; decide)
    (Or.inl (by decide))
    (by intro h hh
        have : h = "Keep-Alive".toList := by
          have h2 : mg_get_header
            { request_info := { http_version := some "1.0".toList
                                http_headers := [("connection".toList, "Keep-Alive".toList)] } }
            "Connection".toList = some "Keep-Alive".toList := by decide
          rw [h2] at hh
          exact (Option.some.inj hh).symm
        subst this
        intro c hc; revert c; decide)
    (by intro v hv
        have : v = "1.0".toList := (Option.some.inj hv).symm
        subst this
        intro c hc; revert c; decide)

/-! ## Request validation -/

/-- C3: when `getreq` succeeds and leaves the error buffer empty,
`process_new_connection` answers with error 400 if the URI is neither exactly
"*" nor begins with a slash, otherwise with error 505 if the HTTP version is
neither "1.0" nor "1.1", and otherwise calls the handler, the `MG_REQUEST_END`
callback and the access log: these three are called exactly when no error
response was produced. -/
theorem serve_request_validation (env : request_env) (conn c0 : mg_connection)
    (v : List Char) (hget : env.getreq conn = (true, [], c0))
    (huri : nul_free c0.request_info.uri)
    (hver : c0.request_info.http_version = some v) (hv : nul_free v) :
    (serve_request env conn).1 =
      if ¬ (c0.request_info.uri = ['*'] ∨ c0.request_info.uri.head? = some '/') then
        [event.response_error 400 "Bad Request".toList
          (snprintf 100 ("Invalid URI: [".toList ++ c0.request_info.uri ++ "]".toList))]
      else if v ≠ "1.0".toList ∧ v ≠ "1.1".toList then
        [event.response_error 505 "Bad HTTP version".toList
          (snprintf 100 ("Bad HTTP version: [".toList ++ v ++ "]".toList))]
      else
        [event.dispatch_and_send_response,
         event.call_user_request_end (env.dispatch_and_send_response c0).status_code,
         event.log_access] := by
  have h10 : nul_free "1.0".toList := by intro c hc; revert c; decide
  have h11 : nul_free "1.1".toList := by intro c hc; revert c; decide
  have e0 := is_valid_uri_iff c0.request_info.uri huri
  have e1 := strcmp_eq_zero_iff v "1.0".toList hv h10
  have e2 := strcmp_eq_zero_iff v "1.1".toList hv h11
  have n1 : ∀ t : List Char,
      (cstr_at (snprintf 100 ("Invalid URI: [".toList ++ t)) 0 == Char.ofNat 0) = false := by
    intro t; simp [snprintf, cstr_at]
  have n2 : ∀ t : List Char,
      (cstr_at (snprintf 100 ("Bad HTTP version: [".toList ++ t)) 0 == Char.ofNat 0) = false := by
    intro t; simp [snprintf, cstr_at]
  have n0 : (cstr_at [] 0 == Char.ofNat 0) = true := by decide
  clear h10 h11
  unfold serve_request
  rw [hget]
  simp only [hver, Option.getD_some, Bool.not_true, Bool.false_eq_true, if_false]
  generalize "1.0".toList = s10 at e1 ⊢
  generalize "1.1".toList = s11 at e2 ⊢
  simp only [ne_eq, List.append_assoc]
  simp only [← e0, ← e1, ← e2]
  generalize "Invalid URI: [".toList = m1 at n1 ⊢
  generalize "Bad HTTP version: [".toList = m2 at n2 ⊢
  by_cases c1 : is_valid_uri c0.request_info.uri = true
  · by_cases c2 : strcmp v s10 = 0
    · simp [c1, c2, n0]
    · by_cases c3 : strcmp v s11 = 0
      · simp [c1, c2, c3, n0]
      · simp [c1, c2, c3, n2]
  · simp [c1, n1]

/-- The request `GET / HTTP/2.0` is answered with error 505 and not dispatched. -/
theorem serve_request_validation_witness :
    (serve_request (env_of "/" "2.0") {}).1 =
      [event.response_error 505 "Bad HTTP version".toList "Bad HTTP version: [2.0]".toList] :=
  serve_request_validation (env_of "/" "2.0") {}
    { request_info := { uri := "/".toList, http_version := some "2.0".toList } }
    "2.0".toList rfl (by intro c hc; revert c; decide) rfl (by intro c hc; revert c; decide)

/-! ## Buffer compaction -/

theorem wrap64_of_range {x : Int} (h1 : -2 ^ 63 ≤ x) (h2 : x < 2 ^ 63) : wrap64 x = x := by
  unfold wrap64
  omega

theorem to_int_of_range {x : Int} (h1 : -2 ^ 31 ≤ x) (h2 : x < 2 ^ 31) : to_int x = x := by
  unfold to_int
  omega

/-- Compaction when `request_len + content_len` is in the range of `int64_t`:
the whole buffer is dropped if the body length is unknown or the request is
empty, otherwise `min (request_len + content_len) data_len` bytes are dropped
and the residue is moved to the start of the buffer. -/
theorem compact_in_range (conn : mg_connection)
    (h0 : 0 ≤ conn.request_len) (h1 : conn.request_len ≤ conn.data_len)
    (h2 : conn.data_len ≤ conn.buf_size) (h3 : conn.buf_size = conn.buf.length)
    (h4 : conn.buf_size < 2 ^ 31) (h5 : -2 ^ 63 ≤ conn.content_len)
    (h6 : conn.request_len + conn.content_len < 2 ^ 63) :
    (conn.content_len < 0 ∨ conn.request_len ≤ 0 → (compact conn).data_len = 0) ∧
    (0 ≤ conn.content_len → 0 < conn.request_len →
      (compact conn).data_len =
        conn.data_len - min (conn.request_len + conn.content_len) conn.data_len ∧
      (compact conn).buf.take (compact conn).data_len.toNat =
        (conn.buf.drop (min (conn.request_len + conn.content_len) conn.data_len).toNat).take
          (conn.data_len - min (conn.request_len + conn.content_len) conn.data_len).toNat) := by
  have hw : wrap64 (conn.request_len + conn.content_len) = conn.request_len + conn.content_len :=
    wrap64_of_range (by omega) h6
  constructor
  · intro h
    have : discard_len conn = conn.data_len := by
      unfold discard_len
      rw [if_neg]
      omega
    simp [compact, this]
  · intro hc hr
    have hd : discard_len conn = min (conn.request_len + conn.content_len) conn.data_len := by
      unfold discard_len
      rw [hw]
      by_cases hlt : conn.request_len + conn.content_len < conn.data_len
      · rw [if_pos ⟨hc, hr, hlt⟩, to_int_of_range (by omega) (by omega)]
        omega
      · rw [if_neg (by omega)]
        omega
    rw [← hd]
    have hlen : (discard_len conn).toNat + (conn.data_len - discard_len conn).toNat ≤
        conn.buf.length := by
      rw [hd]; omega
    refine ⟨by simp [compact], ?_⟩
    simp only [compact, memmove, List.take_zero, List.nil_append, Nat.zero_add]
    rw [List.take_append_of_le_length]
    · rw [List.take_take, Nat.min_self]
    · rw [List.length_take, List.length_drop]
      omega

/-- C4: a `Content-Length` of 2^63 - 1 with 60 bytes of headers among 100
buffered bytes in a buffer of 128 bytes (byte `i` holds the value `i`):
`request_len + content_len` leaves the range of `int64_t`, `discard_len` is 59
instead of `min (request_len + content_len) data_len = 100`, and 41 bytes of
the request just served, the old bytes 59 to 99, stay in the buffer. -/
theorem compact_content_len_overflow :
    discard_len { request_len := 60, content_len := 2 ^ 63 - 1, data_len := 100,
                  buf_size := 128, buf := List.range 128 } = 59 ∧
    (compact { request_len := 60, content_len := 2 ^ 63 - 1, data_len := 100,
               buf_size := 128, buf := List.range 128 }).data_len = 41 ∧
    (compact { request_len := 60, content_len := 2 ^ 63 - 1, data_len := 100,
               buf_size := 128, buf := List.range 128 }).buf.take 41 =
      (List.range 100).drop 59 ∧
    (100 : Int) - min (60 + (2 ^ 63 - 1)) 100 = 0 := by
  decide

/-! ## The accept queue: bounds -/

theorem wrap_pointers_eq (size t h : Int) (hs : 0 < size) (hs2 : size < 2 ^ 30)
    (ht1 : 1 ≤ t) (ht2 : t ≤ size + 1) (hh1 : t ≤ h) (hh2 : h ≤ t + size) :
    wrap_pointers size t.toNat (t, h) = if t > size then (t - size, h - size) else (t, h) := by
  have hsz : to_int size = size := to_int_of_range (by omega) (by omega)
  obtain ⟨n, hn⟩ : ∃ n, t.toNat = n + 1 := ⟨t.toNat - 1, by omega⟩
  rw [hn]
  by_cases hgt : t > size
  · obtain ⟨m, hm⟩ : ∃ m, n = m + 1 := ⟨n - 1, by omega⟩
    have e1 : to_int (t - size) = 1 := by
      rw [to_int_of_range (by omega) (by omega)]; omega
    have e2 : to_int (h - size) = h - size := to_int_of_range (by omega) (by omega)
    rw [hm]
    simp only [wrap_pointers, hsz, hgt, if_true, e1, e2]
    rw [if_neg (by omega)]
    have : t - size = 1 := by omega
    rw [this]
  · simp only [wrap_pointers, hsz, hgt, if_false]

theorem produce_store_inv (size : Int) (hs2 : size < 2 ^ 30) (ctx : mg_context) (sp : socket)
    (h : queue_inv size ctx) : queue_inv size (produce_store ctx sp) := by
  obtain ⟨a, b, c, d, e⟩ := h
  unfold produce_store produce_stores
  rw [a, to_int_of_range (by omega) (by omega), to_int_of_range (by omega) (by omega)]
  by_cases hlt : ctx.sq_head - ctx.sq_tail < size
  · simp only [hlt, decide_True, if_true]
    rw [to_int_of_range (by omega) (by omega)]
    refine ⟨?_, b, c, by simp only []; omega, by simp only []; omega⟩
    simp only [ARRAY_SIZE, List.length_set] at a ⊢
    exact a
  · simp only [hlt, decide_False, Bool.false_eq_true, if_false]
    exact ⟨a, b, c, d, e⟩

theorem consume_take_inv (size : Int) (hs : 0 < size) (hs2 : size < 2 ^ 30)
    (ctx : mg_context) (sp : socket) (h : queue_inv size ctx) :
    queue_inv size (consume_take ctx sp).1 := by
  obtain ⟨a, b, c, d, e⟩ := h
  unfold consume_take consume_takes
  by_cases hgt : ctx.sq_head > ctx.sq_tail
  · simp only [hgt, decide_True, if_true]
    rw [a, to_int_of_range (by omega) (by omega),
      wrap_pointers_eq size (ctx.sq_tail + 1) ctx.sq_head hs hs2 (by omega) (by omega)
        (by omega) (by omega)]
    by_cases hw : ctx.sq_tail + 1 > size
    · simp only [hw, if_true]
      exact ⟨a, by simp only []; omega, by simp only []; omega, by simp only []; omega,
        by simp only []; omega⟩
    · simp only [hw, if_false]
      exact ⟨a, by simp only []; omega, by simp only []; omega, by simp only []; omega,
        by simp only []; omega⟩
  · simp only [hgt, decide_False, Bool.false_eq_true, if_false]
    exact ⟨a, b, c, d, e⟩

theorem queue_step_inv (size : Int) (hs : 0 < size) (hs2 : size < 2 ^ 30)
    (r : queue_run) (op : queue_op) (h : queue_inv size r.ctx) :
    queue_inv size (queue_step r op).ctx := by
  cases op with
  | produce stop_flag sp =>
    simp only [queue_step, produce_socket]
    by_cases hw : produce_waits stop_flag r.ctx = true
    · simpa [hw] using h
    · simpa [hw] using produce_store_inv size hs2 r.ctx sp h
  | consume stop_flag stop_flag_ret =>
    simp only [queue_step, consume_socket]
    by_cases hw : consume_waits stop_flag r.ctx = true
    · simpa [hw] using h
    · simpa [hw] using consume_take_inv size hs hs2 r.ctx _ h

theorem queue_steps_inv (size : Int) (hs : 0 < size) (hs2 : size < 2 ^ 30)
    (ops : List queue_op) : ∀ (r : queue_run), queue_inv size r.ctx →
    queue_inv size (queue_steps r ops).ctx := by
  induction ops with
  | nil => intro r h; exact h
  | cons op rest ih =>
    intro r h
    exact ih (queue_step r op) (queue_step_inv size hs hs2 r op h)

theorem queue_init_inv (cfg : List Char) (size : Nat) :
    queue_inv (size : Int) (queue_init cfg size).ctx := by
  simp [queue_inv, queue_init, ARRAY_SIZE]

/-- C5: starting from `sq_head = sq_tail = 0`, after every finite sequence of
`produce_socket` and `consume_socket` steps, with any values of `stop_flag`,
the occupancy `sq_head - sq_tail` is between 0 and the capacity Q of the queue
array, `sq_tail` is between 0 and Q, and `sq_head` is at most 2Q (Q is a
positive array size below 2^30, so that the C `int` counters do not wrap). -/
theorem accept_queue_bounds (cfg : List Char) (size : Nat) (hs : 0 < size)
    (hs2 : size < 2 ^ 30) (ops : List queue_op) :
    0 ≤ (queue_steps (queue_init cfg size) ops).ctx.sq_head -
        (queue_steps (queue_init cfg size) ops).ctx.sq_tail ∧
    (queue_steps (queue_init cfg size) ops).ctx.sq_head -
        (queue_steps (queue_init cfg size) ops).ctx.sq_tail ≤ size ∧
    0 ≤ (queue_steps (queue_init cfg size) ops).ctx.sq_tail ∧
    (queue_steps (queue_init cfg size) ops).ctx.sq_tail ≤ size ∧
    (queue_steps (queue_init cfg size) ops).ctx.sq_head ≤ 2 * size := by
  have h := queue_steps_inv (size : Int) (by exact_mod_cast hs) (by exact_mod_cast hs2) ops
    (queue_init cfg size) (queue_init_inv cfg size)
  obtain ⟨_, b, c, d, e⟩ := h
  refine ⟨by omega, by omega, b, c, by omega⟩

/-- The bounds of the accept queue on a run that rebases the counters. -/
theorem accept_queue_bounds_witness :
    ((queue_steps (queue_init [] 2) ops_rebase).ctx.sq_head = 1 ∧
      (queue_steps (queue_init [] 2) ops_rebase).ctx.sq_tail = 1) ∧
    (0 ≤ (queue_steps (queue_init [] 2) ops_rebase).ctx.sq_head -
        (queue_steps (queue_init [] 2) ops_rebase).ctx.sq_tail ∧
    (queue_steps (queue_init [] 2) ops_rebase).ctx.sq_head -
        (queue_steps (queue_init [] 2) ops_rebase).ctx.sq_tail ≤ (2 : Nat) ∧
    0 ≤ (queue_steps (queue_init [] 2) ops_rebase).ctx.sq_tail ∧
    (queue_steps (queue_init [] 2) ops_rebase).ctx.sq_tail ≤ (2 : Nat) ∧
    (queue_steps (queue_init [] 2) ops_rebase).ctx.sq_head ≤ 2 * (2 : Nat)) :=
  ⟨by decide, accept_queue_bounds [] 2 (by decide) (by decide) ops_rebase⟩

/-! ## The accept queue: first in, first out -/

theorem emod_toNat_ne (size a b : Int) (hs : 0 < size) (h1 : 0 < b - a) (h2 : b - a < size) :
    (a % size).toNat ≠ (b % size).toNat := by
  have ha := Int.emod_nonneg a (ne_of_gt hs)
  have hb := Int.emod_nonneg b (ne_of_gt hs)
  have hne : a % size ≠ b % size := by
    intro h
    have h3 := (Int.emod_eq_emod_iff_emod_sub_eq_zero).mp h.symm
    rw [Int.emod_eq_of_lt (le_of_lt h1) h2] at h3
    omega
  omega

theorem emod_toNat_lt (size a : Int) (hs : 0 < size) : ((a % size).toNat : Int) < size := by
  have ha := Int.emod_nonneg a (ne_of_gt hs)
  have hb := Int.emod_lt_of_pos a hs
  omega

theorem queue_contents_length (ctx : mg_context) :
    (queue_contents ctx).length = (ctx.sq_head - ctx.sq_tail).toNat := by
  simp [queue_contents]

theorem produce_stores_iff (size : Int) (hs2 : size < 2 ^ 30) (ctx : mg_context)
    (h : queue_inv size ctx) :
    produce_stores ctx = true ↔ ctx.sq_head - ctx.sq_tail < size := by
  obtain ⟨a, b, c, d, e⟩ := h
  unfold produce_stores
  rw [a, to_int_of_range (by omega) (by omega), to_int_of_range (by omega) (by omega)]
  simp

theorem queue_contents_produce (size : Int) (hs : 0 < size) (hs2 : size < 2 ^ 30)
    (ctx : mg_context) (sp : socket) (h : queue_inv size ctx)
    (hp : produce_stores ctx = true) :
    queue_contents (produce_store ctx sp) = queue_contents ctx ++ [sp] := by
  have hlt := (produce_stores_iff size hs2 ctx h).mp hp
  obtain ⟨a, b, c, d, e⟩ := h
  have hsz : to_size_t ctx.sq_head = ctx.sq_head := by
    unfold to_size_t; omega
  have hn : (to_int (ctx.sq_head + 1) - ctx.sq_tail).toNat =
      (ctx.sq_head - ctx.sq_tail).toNat + 1 := by
    rw [to_int_of_range (by omega) (by omega)]; omega
  have hlen : ((ctx.queue.length : Int)) = size := a
  unfold produce_store
  rw [if_pos hp]
  unfold queue_contents
  simp only [ARRAY_SIZE, List.length_set, hn, hsz, hlen]
  rw [List.range_succ, List.map_append, List.map_singleton]
  have e1 : ctx.sq_tail + (((ctx.sq_head - ctx.sq_tail).toNat : Nat) : Int) = ctx.sq_head := by
    omega
  have e2 := emod_toNat_lt size ctx.sq_head hs
  have ea : (ctx.queue.set (ctx.sq_head % size).toNat sp).getD
      ((ctx.sq_tail + (((ctx.sq_head - ctx.sq_tail).toNat : Nat) : Int)) % size).toNat
      ⟨-1, 0, 0⟩ = sp := by
    rw [e1, List.getD_eq_getElem?_getD, List.getElem?_set_self (by omega)]
    rfl
  have eb : List.map (fun (i : Nat) => (ctx.queue.set (ctx.sq_head % size).toNat sp).getD
        ((ctx.sq_tail + (i : Int)) % size).toNat ⟨-1, 0, 0⟩)
        (List.range (ctx.sq_head - ctx.sq_tail).toNat) =
      List.map (fun (i : Nat) => ctx.queue.getD
        ((ctx.sq_tail + (i : Int)) % size).toNat ⟨-1, 0, 0⟩)
        (List.range (ctx.sq_head - ctx.sq_tail).toNat) := by
    apply List.map_congr_left
    intro i hi
    have hi2 : i < (ctx.sq_head - ctx.sq_tail).toNat := List.mem_range.mp hi
    have hne := emod_toNat_ne size (ctx.sq_tail + i) ctx.sq_head hs (by omega) (by omega)
    simp only [List.getD_eq_getElem?_getD]
    rw [List.getElem?_set_ne (Ne.symm hne)]
  rw [ea, eb]

theorem queue_contents_consume (size : Int) (hs : 0 < size) (hs2 : size < 2 ^ 30)
    (ctx : mg_context) (sp : socket) (h : queue_inv size ctx)
    (hc : consume_takes ctx = true) :
    queue_contents ctx = (consume_take ctx sp).2 :: queue_contents (consume_take ctx sp).1 := by
  obtain ⟨a, b, c, d, e⟩ := h
  have hgt : ctx.sq_head > ctx.sq_tail := by
    simpa [consume_takes] using hc
  have hsz : to_size_t ctx.sq_tail = ctx.sq_tail := by
    unfold to_size_t; omega
  obtain ⟨m, hm⟩ : ∃ m, (ctx.sq_head - ctx.sq_tail).toNat = m + 1 :=
    ⟨(ctx.sq_head - ctx.sq_tail).toNat - 1, by omega⟩
  have hidx := emod_toNat_lt size ctx.sq_tail hs
  have hlen : ((ctx.queue.length : Int)) = size := a
  have hidx2 : (ctx.sq_tail % size).toNat < ctx.queue.length := by omega
  have hfirst : ∀ d1 d2 : socket, ctx.queue.getD (ctx.sq_tail % size).toNat d1 =
      ctx.queue.getD (ctx.sq_tail % size).toNat d2 := by
    intro d1 d2
    simp only [List.getD_eq_getElem?_getD, List.getElem?_eq_getElem hidx2, Option.getD_some]
  have hmod : ∀ i : Nat, (ctx.sq_tail + 1 - size + (i : Int)) % size =
      (ctx.sq_tail + ((i + 1 : Nat) : Int)) % size := by
    intro i
    have : ctx.sq_tail + 1 - size + (i : Int) = ctx.sq_tail + ((i + 1 : Nat) : Int) + (-1) * size := by
      push_cast; ring
    rw [this, Int.add_mul_emod_self]
  have hmod2 : ∀ i : Nat, (ctx.sq_tail + 1 + (i : Int)) % size =
      (ctx.sq_tail + ((i + 1 : Nat) : Int)) % size := by
    intro i
    have : ctx.sq_tail + 1 + (i : Int) = ctx.sq_tail + ((i + 1 : Nat) : Int) := by
      push_cast; ring
    rw [this]
  have hl : queue_contents ctx = ctx.queue.getD (ctx.sq_tail % size).toNat sp ::
      List.map (fun (i : Nat) => ctx.queue.getD
        ((ctx.sq_tail + ((i + 1 : Nat) : Int)) % size).toNat ⟨-1, 0, 0⟩) (List.range m) := by
    unfold queue_contents
    rw [hm, List.range_succ_eq_map, List.map_cons, List.map_map, a]
    rw [hfirst sp ⟨-1, 0, 0⟩]
    simp only [Nat.cast_zero, add_zero, Function.comp_def, Nat.succ_eq_add_one]
  rw [hl]
  unfold consume_take
  rw [if_pos hc]
  simp only [a, hsz]
  rw [to_int_of_range (by omega) (by omega),
    wrap_pointers_eq size (ctx.sq_tail + 1) ctx.sq_head hs hs2 (by omega) (by omega)
      (by omega) (by omega)]
  by_cases hw : ctx.sq_tail + 1 > size
  · simp only [hw, if_true, queue_contents, ARRAY_SIZE, hlen, hmod]
    have : (ctx.sq_head - size - (ctx.sq_tail + 1 - size)).toNat = m := by omega
    rw [this]
  · simp only [hw, if_false, queue_contents, ARRAY_SIZE, hlen, hmod2]
    have : (ctx.sq_head - (ctx.sq_tail + 1)).toNat = m := by omega
    rw [this]

theorem queue_contents_empty (ctx : mg_context) (hc : ¬ consume_takes ctx = true) :
    queue_contents ctx = [] := by
  have : ¬ ctx.sq_head > ctx.sq_tail := by simpa [consume_takes] using hc
  have h0 : (ctx.sq_head - ctx.sq_tail).toNat = 0 := by omega
  simp [queue_contents, h0]

theorem queue_step_produce (r : queue_run) (stop_flag : Int) (sp : socket) :
    queue_step r (queue_op.produce stop_flag sp) =
      if produce_waits stop_flag r.ctx = true then r
      else { ctx := produce_store r.ctx sp
             stored := if produce_stores r.ctx = true then r.stored ++ [sp] else r.stored
             removed := r.removed } := by
  simp only [queue_step, produce_socket]
  by_cases hw : produce_waits stop_flag r.ctx = true
  · simp [hw]
  · simp [hw]

theorem queue_step_consume (r : queue_run) (stop_flag stop_flag_ret : Int) :
    queue_step r (queue_op.consume stop_flag stop_flag_ret) =
      if consume_waits stop_flag r.ctx = true then r
      else { ctx := (consume_take r.ctx ⟨-1, 0, 0⟩).1
             stored := r.stored
             removed := if consume_takes r.ctx = true then
                 r.removed ++ [(consume_take r.ctx ⟨-1, 0, 0⟩).2]
               else r.removed } := by
  simp only [queue_step, consume_socket]
  by_cases hw : consume_waits stop_flag r.ctx = true
  · simp [hw]
  · simp [hw]

theorem queue_step_sim (size : Nat) (hs : 0 < size) (hs2 : size < 2 ^ 30)
    (r : queue_run) (st : fifo_run) (op : queue_op)
    (h : queue_inv (size : Int) r.ctx) (hsim : queue_sim r st) :
    queue_sim (queue_step r op) (fifo_step size st op) := by
  have hs' : (0 : Int) < (size : Int) := by exact_mod_cast hs
  have hs2' : (size : Int) < 2 ^ 30 := by exact_mod_cast hs2
  obtain ⟨s1, s2, s3, s4⟩ := hsim
  have hlen : st.queue.length = (r.ctx.sq_head - r.ctx.sq_tail).toNat := by
    rw [← s1, queue_contents_length]
  have hps := produce_stores_iff (size : Int) hs2' r.ctx h
  obtain ⟨a, b, c, d, e⟩ := id h
  cases op with
  | produce stop_flag sp =>
    rw [queue_step_produce]
    simp only [fifo_step, fifo_enqueue]
    by_cases hw : produce_waits stop_flag r.ctx = true
    · have hfull : ¬ (r.ctx.sq_head - r.ctx.sq_tail < size) := by
        have h2 : ¬ produce_stores r.ctx = true := by
          simp only [produce_waits, Bool.and_eq_true, decide_eq_true_eq] at hw
          simp only [produce_stores, decide_eq_true_eq]
          omega
        exact fun hlt => h2 (hps.mpr hlt)
      have hnl : ¬ st.queue.length < size := by omega
      rw [if_pos hw, if_neg hnl, if_neg hnl]
      exact ⟨s1, s2, s3, s4⟩
    · rw [if_neg hw]
      by_cases hp : produce_stores r.ctx = true
      · have hl : st.queue.length < size := by have := hps.mp hp; omega
        have hc := queue_contents_produce (size : Int) hs' hs2' r.ctx sp h hp
        rw [if_pos hp, if_pos hl, if_pos hl]
        refine ⟨?_, s2, ?_, ?_⟩
        · dsimp only
          rw [hc, s1]
        · dsimp only
          rw [s3]
        · dsimp only
          rw [hc, ← List.append_assoc, s4]
      · have hl : ¬ st.queue.length < size := by
          intro hl; exact hp (hps.mpr (by omega))
        have hu : produce_store r.ctx sp = r.ctx := by
          unfold produce_store; rw [if_neg hp]
        rw [if_neg hp, if_neg hl, if_neg hl, hu]
        exact ⟨s1, s2, s3, s4⟩
  | consume stop_flag stop_flag_ret =>
    rw [queue_step_consume]
    simp only [fifo_step]
    by_cases hw : consume_waits stop_flag r.ctx = true
    · have he : st.queue = [] := by
        have : r.ctx.sq_head = r.ctx.sq_tail := by
          simp only [consume_waits, Bool.and_eq_true, beq_iff_eq] at hw
          exact hw.1
        apply List.eq_nil_of_length_eq_zero
        omega
      rw [if_pos hw, he]
      simp only [fifo_dequeue]
      exact ⟨by rw [s1, he], s2, s3, s4⟩
    · rw [if_neg hw]
      by_cases hc : consume_takes r.ctx = true
      · have hq := queue_contents_consume (size : Int) hs' hs2' r.ctx ⟨-1, 0, 0⟩ h hc
        have hq2 := hq
        rw [s1] at hq2
        rw [if_pos hc, hq2]
        simp only [fifo_dequeue]
        refine ⟨rfl, ?_, s3, ?_⟩
        · dsimp only
          rw [s2]
        · dsimp only
          rw [List.append_assoc, List.singleton_append, ← hq, s4]
      · have he := queue_contents_empty r.ctx hc
        have hu : consume_take r.ctx ⟨-1, 0, 0⟩ = (r.ctx, ⟨-1, 0, 0⟩) := by
          unfold consume_take; rw [if_neg hc]
        have he2 := he
        rw [s1] at he2
        rw [if_neg hc, hu, he2]
        simp only [fifo_dequeue]
        exact ⟨s1, s2, s3, s4⟩

theorem queue_steps_sim (size : Nat) (hs : 0 < size) (hs2 : size < 2 ^ 30)
    (ops : List queue_op) : ∀ (r : queue_run) (st : fifo_run),
    queue_inv (size : Int) r.ctx → queue_sim r st →
    queue_sim (queue_steps r ops) (ops.foldl (fifo_step size) st) := by
  induction ops with
  | nil => intro r st _ h; exact h
  | cons op rest ih =>
    intro r st hinv h
    exact ih (queue_step r op) (fifo_step size st op)
      (queue_step_inv (size : Int) (by exact_mod_cast hs) (by exact_mod_cast hs2) r op hinv)
      (queue_step_sim size hs hs2 r st op hinv h)

/-- C6: the accept queue is first in, first out. For every sequence of
`produce_socket` and `consume_socket` steps from the empty queue, the records
removed followed by the records still waiting (the slots `sq_tail` to
`sq_head - 1` modulo the capacity) are the records stored, in order: the k-th
record removed is the k-th record stored. The ring buffer with its rebased
counters goes step by step like the bounded FIFO list: same records stored,
same records removed, same records waiting. -/
theorem accept_queue_fifo (cfg : List Char) (size : Nat) (hs : 0 < size)
    (hs2 : size < 2 ^ 30) (ops : List queue_op) :
    (queue_steps (queue_init cfg size) ops).removed ++
        queue_contents (queue_steps (queue_init cfg size) ops).ctx =
      (queue_steps (queue_init cfg size) ops).stored ∧
    (∀ k, k < (queue_steps (queue_init cfg size) ops).removed.length →
      (queue_steps (queue_init cfg size) ops).removed[k]? =
        (queue_steps (queue_init cfg size) ops).stored[k]?) ∧
    (queue_steps (queue_init cfg size) ops).removed = (fifo_steps size ops).removed ∧
    (queue_steps (queue_init cfg size) ops).stored = (fifo_steps size ops).stored ∧
    queue_contents (queue_steps (queue_init cfg size) ops).ctx = (fifo_steps size ops).queue := by
  have h0 : queue_sim (queue_init cfg size) { queue := [], stored := [], removed := [] } := by
    simp [queue_sim, queue_init, queue_contents]
  have h := queue_steps_sim size hs hs2 ops (queue_init cfg size) _
    (queue_init_inv cfg size) h0
  obtain ⟨s1, s2, s3, s4⟩ := h
  refine ⟨s4, ?_, s2, s3, s1⟩
  intro k hk
  rw [← s4, List.getElem?_append_left hk]

/-- The accept queue of two slots on a run that rebases the counters: the three
records come out in the order they went in. -/
theorem accept_queue_fifo_witness :
    (queue_steps (queue_init [] 2) ops_rebase).removed = [⟨7, 0, 1⟩, ⟨8, 0, 2⟩, ⟨9, 0, 3⟩] ∧
    (queue_steps (queue_init [] 2) ops_rebase).removed ++
        queue_contents (queue_steps (queue_init [] 2) ops_rebase).ctx =
      (queue_steps (queue_init [] 2) ops_rebase).stored :=
  ⟨by decide, (accept_queue_fifo [] 2 (by decide) (by decide) ops_rebase).1⟩

/-! ## The worker and the stop flag -/

/-- C7: a worker that calls `consume_socket` while `stop_flag` is set, with one
socket waiting, removes the socket from the queue and leaves its loop:
`process_new_connection` and `close_connection` are not called for it, the
descriptor stays open. The same holds when the flag is set between the removal
and the `return`. While the flag is clear the socket is serviced and closed
once. -/
theorem worker_loop_stop_leaves_socket_open :
    (worker_loop [(1, 1)] ctx_one_socket {}).1 = [worker_event.removed ⟨7, 0, 1⟩] ∧
    (worker_loop [(1, 1)] ctx_one_socket {}).2.1.sq_tail = 1 ∧
    (worker_loop [(1, 1)] ctx_one_socket {}).2.2.client.sock = 7 ∧
    (worker_loop [(0, 1)] ctx_one_socket {}).1 = [worker_event.removed ⟨7, 0, 1⟩] ∧
    (worker_loop [(0, 0), (1, 1)] ctx_one_socket {}).1 =
      [worker_event.removed ⟨7, 0, 1⟩, worker_event.process_new_connection ⟨7, 0, 1⟩,
       worker_event.close_socket_gracefully ⟨7, 0, 1⟩] := by
  decide

/-- C8, as stated, fails: with `stop_flag` set and room in the queue,
`produce_socket` stores the record in slot 0 and increments `sq_head`. -/
theorem produce_socket_stopping_enqueues :
    produce_socket 1 (queue_init [] 2).ctx ⟨7, 0, 1⟩ =
      some { enable_keep_alive := [], queue := [⟨7, 0, 1⟩, ⟨0, 0, 0⟩], sq_head := 1, sq_tail := 0 } ∧
    produce_socket 1 (queue_init [] 2).ctx ⟨7, 0, 1⟩ ≠ some (queue_init [] 2).ctx := by
  decide

/-- C8, amended: when `stop_flag` is set, `produce_socket` returns without
waiting; it leaves `sq_head`, `sq_tail` and every slot unchanged when the queue
is full, and when there is room it stores the record in slot
`sq_head % Q` and increments `sq_head`. -/
theorem produce_socket_stopping (size : Int) (hs : 0 < size) (hs2 : size < 2 ^ 30)
    (stop_flag : Int) (ctx : mg_context) (sp : socket)
    (hstop : stop_flag ≠ 0) (h : queue_inv size ctx) :
    produce_socket stop_flag ctx sp =
      some (if ctx.sq_head - ctx.sq_tail = size then ctx
            else { ctx with
                   queue := ctx.queue.set (ctx.sq_head % size).toNat sp
                   sq_head := ctx.sq_head + 1 }) := by
  have hps := produce_stores_iff size hs2 ctx h
  obtain ⟨a, b, c, d, e⟩ := h
  have hw : produce_waits stop_flag ctx = false := by
    simp [produce_waits, hstop]
  unfold produce_socket
  rw [hw]
  simp only [Bool.false_eq_true, if_false, Option.some.injEq]
  unfold produce_store
  by_cases hfull : ctx.sq_head - ctx.sq_tail = size
  · have hp : ¬ produce_stores ctx = true := fun hp => by have := hps.mp hp; omega
    rw [if_neg hp, if_pos hfull]
  · have hp : produce_stores ctx = true := hps.mpr (by omega)
    have hsz : to_size_t ctx.sq_head = ctx.sq_head := by unfold to_size_t; omega
    rw [if_pos hp, if_neg hfull, a, hsz, to_int_of_range (by omega) (by omega)]

/-- A full queue of two slots is left as it is by `produce_socket` when
`stop_flag` is set. -/
theorem produce_socket_stopping_witness :
    produce_socket 1
        { enable_keep_alive := [], queue := [⟨7, 0, 1⟩, ⟨8, 0, 2⟩], sq_head := 2, sq_tail := 0 }
        ⟨9, 0, 3⟩ =
      some { enable_keep_alive := [], queue := [⟨7, 0, 1⟩, ⟨8, 0, 2⟩], sq_head := 2, sq_tail := 0 } :=
  produce_socket_stopping 2 (by decide) (by decide) 1
    { enable_keep_alive := [], queue := [⟨7, 0, 1⟩, ⟨8, 0, 2⟩], sq_head := 2, sq_tail := 0 }
    ⟨9, 0, 3⟩ (by decide) (by unfold queue_inv; decide)

/-! ## The transport writer -/

/-- C9: with a cap of 10 bytes per second, a write of 25 bytes whose second
`push` is cut short after 4 bytes returns 10, while the two calls of `push`
reported 10 + 4 = 14 bytes as sent. -/
theorem mg_write_short_push_not_counted :
    (mg_write { throttle := 10 } { sends := [10, 4, -1] } 25).1 = 10 ∧
    (mg_write { throttle := 10 } { sends := [10, 4, -1] } 25).2.2.pushed =
      [(0, 10, 10), (0, 10, 4)] ∧
    bytes_sent_since (mg_write { throttle := 10 } { sends := [10, 4, -1] } 25).2.2 0 = 14 := by
  decide

/-- C10: with a cap of 10 bytes per second, nothing sent yet in the tick and
every `send` complete, a write of 25 bytes issues pushes of 10, 10 and 5
bytes; the second is issued at the same clock value as the first, when the
cap leaves `min 15 (10 - 10) = 0` bytes, so 20 bytes are pushed within the
first second. -/
theorem mg_write_exceeds_throttle :
    (mg_write { throttle := 10 } { sends := [10, 10, 5] } 25).1 = 25 ∧
    (mg_write { throttle := 10 } { sends := [10, 10, 5] } 25).2.2.pushed =
      [(0, 10, 10), (0, 10, 10), (1, 5, 5)] ∧
    bytes_sent_at (mg_write { throttle := 10 } { sends := [10, 10, 5] } 25).2.2 0 = 20 ∧
    (mg_write { throttle := 10 } { sends := [10, 10, 5] } 25).2.2.now = 2 := by
  decide

/-! ## The keep-alive switch -/

/-- C18: with the setting "YES" and a request of HTTP 1.1 without a
`Connection` header, `should_keep_alive` returns 1 and
`suggest_connection_header` answers "keep-alive", while
`process_new_connection` does not reuse the connection (one request served out
of two); with the setting "yes" both requests are served. The two functions
disagree on whether the switch is on. -/
theorem keep_alive_switch_disagrees :
    should_keep_alive (ctx_of "YES")
      (serve_request (env_of "/" "1.1") { data_len := 0 }).2.2 = 1 ∧
    suggest_connection_header (ctx_of "YES")
      (serve_request (env_of "/" "1.1") { data_len := 0 }).2.2 = "keep-alive".toList ∧
    (process_new_connection (ctx_of "YES") [env_of "/" "1.1", env_of "/" "1.1"] {}).1 =
      [event.dispatch_and_send_response, event.call_user_request_end 200, event.log_access] ∧
    (process_new_connection (ctx_of "yes") [env_of "/" "1.1", env_of "/" "1.1"] {}).1 =
      [event.dispatch_and_send_response, event.call_user_request_end 200, event.log_access,
       event.dispatch_and_send_response, event.call_user_request_end 200, event.log_access] := by
  decide

/-! ## Socket timeouts -/

/-- The timeval of `set_sock_timeout` is exact while `milliseconds * 1000` fits
an `int`. -/
theorem sock_timeval_in_range (milliseconds : Int) (h0 : 0 ≤ milliseconds)
    (h1 : milliseconds ≤ 2147483) :
    (sock_timeval milliseconds).tv_sec * 1000000 + (sock_timeval milliseconds).tv_usec =
      milliseconds * 1000 ∧
    0 ≤ (sock_timeval milliseconds).tv_usec ∧
    (sock_timeval milliseconds).tv_usec < 1000000 := by
  unfold sock_timeval
  simp only
  rw [to_int_of_range (by omega) (by omega)]
  rw [Int.tdiv_eq_ediv (by omega) (by omega), Int.tmod_eq_emod (by omega) (by omega)]
  omega

/-- C19: a request timeout of 2147484 milliseconds (about 36 minutes):
`milliseconds * 1000` leaves the range of `int`, the timeval built has
`tv_usec = -483296`, and `tv_sec * 1000000 + tv_usec` is 2146516704 instead of
2147484000. When the first `setsockopt` fails, `SO_SNDTIMEO` is not set. -/
theorem set_sock_timeout_overflow :
    sock_timeval 2147484 = { tv_sec := 2147, tv_usec := -483296 } ∧
    (sock_timeval 2147484).tv_sec * 1000000 + (sock_timeval 2147484).tv_usec = 2146516704 ∧
    (2147484 : Int) * 1000 = 2147484000 ∧
    (set_sock_timeout 0 0 2147484).1 =
      [(sockopt.SO_RCVTIMEO, { tv_sec := 2147, tv_usec := -483296 }),
       (sockopt.SO_SNDTIMEO, { tv_sec := 2147, tv_usec := -483296 })] ∧
    (set_sock_timeout (-1) 0 30000).1 =
      [(sockopt.SO_RCVTIMEO, { tv_sec := 30, tv_usec := 0 })] := by
  decide

/-! ## Compaction keeps the cursors in range -/

/-- C20: for every connection with `0 <= request_len <= data_len <= buf_size`
(`buf_size` an `int`) and every 64-bit `content_len`, also when
`request_len + content_len` wraps around and is narrowed to `int`, the
`discard_len` computed satisfies `0 <= discard_len <= data_len`, so the three
assertions of `process_new_connection` hold and afterwards
`0 <= data_len <= buf_size`. -/
theorem discard_len_in_range (conn : mg_connection)
    (h0 : 0 ≤ conn.request_len) (h1 : conn.request_len ≤ conn.data_len)
    (h2 : conn.data_len ≤ conn.buf_size) (h3 : conn.buf_size < 2 ^ 31)
    (h4 : -2 ^ 63 ≤ conn.content_len) (h5 : conn.content_len < 2 ^ 63) :
    0 ≤ discard_len conn ∧ discard_len conn ≤ conn.data_len ∧
    0 ≤ (compact conn).data_len ∧ (compact conn).data_len ≤ (compact conn).buf_size := by
  have hd : 0 ≤ discard_len conn ∧ discard_len conn ≤ conn.data_len := by
    unfold discard_len wrap64 to_int
    split
    · rename_i h
      obtain ⟨ha, hb, hc⟩ := h
      omega
    · omega
  refine ⟨hd.1, hd.2, ?_, ?_⟩
  · simp only [compact]; omega
  · simp only [compact]; omega

/-- The bounds of `discard_len` at a `Content-Length` of 2^63 - 1, where
`request_len + content_len` wraps around. -/
theorem discard_len_in_range_witness :
    0 ≤ discard_len { request_len := 60, content_len := 2 ^ 63 - 1, data_len := 100,
                      buf_size := 128, buf := List.range 128 } ∧
    discard_len { request_len := 60, content_len := 2 ^ 63 - 1, data_len := 100,
                  buf_size := 128, buf := List.range 128 } ≤ 100 ∧
    0 ≤ (compact { request_len := 60, content_len := 2 ^ 63 - 1, data_len := 100,
                   buf_size := 128, buf := List.range 128 }).data_len ∧
    (compact { request_len := 60, content_len := 2 ^ 63 - 1, data_len := 100,
               buf_size := 128, buf := List.range 128 }).data_len ≤ 128 :=
  discard_len_in_range
    { request_len := 60, content_len := 2 ^ 63 - 1, data_len := 100,
      buf_size := 128, buf := List.range 128 }
    (by decide) (by decide) (by decide) (by decide) (by decide) (by decide)

/-! ## URL decoding -/

theorem char_cases (P : Char → Prop) (lo hi : Nat)
    (h : ∀ n, n < hi + 1 → lo ≤ n → P (Char.ofNat n)) (c : Char)
    (h1 : lo ≤ c.toNat) (h2 : c.toNat ≤ hi) : P c := by
  have := h c.toNat (by omega) h1
  rwa [Char.ofNat_toNat] at this

theorem isxdigit_cases (P : Char → Prop) (h : ∀ c ∈ hex_digits, P c) (c : Char)
    (hc : isxdigit c = true) : P c := by
  simp only [isxdigit, isdigit, Bool.or_eq_true, Bool.and_eq_true, decide_eq_true_eq] at hc
  rcases hc with (⟨h1, h2⟩ | ⟨h1, h2⟩) | ⟨h1, h2⟩
  · exact char_cases P 48 57 (fun n hn hl => h _ (by revert n; decide)) c h1 h2
  · exact char_cases P 97 102 (fun n hn hl => h _ (by revert n; decide)) c h1 h2
  · exact char_cases P 65 70 (fun n hn hl => h _ (by revert n; decide)) c h1 h2

theorem isxdigit_iff (c : Char) : isxdigit c = true ↔ c ∈ hex_digits := by
  constructor
  · exact isxdigit_cases (fun c => c ∈ hex_digits) (fun c hc => hc) c
  · intro h
    revert c
    decide

theorem HEXTOI_lowercase (c : Char) (hc : isxdigit c = true) :
    HEXTOI (lowercase c) = hex_value c ∧ hex_value c < 16 :=
  isxdigit_cases (fun c => HEXTOI (lowercase c) = hex_value c ∧ hex_value c < 16)
    (by decide) c hc

theorem hex_byte (a b : Char) (ha : isxdigit a = true) (hb : isxdigit b = true) :
    to_char ((HEXTOI (lowercase a) <<< 4) ||| HEXTOI (lowercase b)) =
      Char.ofNat (16 * hex_value a + hex_value b) := by
  obtain ⟨e1, l1⟩ := HEXTOI_lowercase a ha
  obtain ⟨e2, l2⟩ := HEXTOI_lowercase b hb
  rw [e1, e2]
  have key : ∀ x, x < 16 → ∀ y, y < 16 → (x <<< 4 ||| y) % 256 = 16 * x + y := by decide
  unfold to_char
  rw [key _ l1 _ l2]

theorem url_decode_ref_cons (form : Bool) (c : Char) (rest : List Char) :
    url_decode_ref form (c :: rest) =
      if c = '%' ∧ 2 ≤ rest.length ∧ cstr_at rest 0 ∈ hex_digits ∧
          cstr_at rest 1 ∈ hex_digits then
        Char.ofNat (16 * hex_value (cstr_at rest 0) + hex_value (cstr_at rest 1)) ::
          url_decode_ref form (rest.drop 2)
      else (if form = true ∧ c = '+' then ' ' else c) :: url_decode_ref form rest := by
  match rest with
  | [] =>
    simp [url_decode_ref]
    split <;> simp
  | [a] =>
    simp [url_decode_ref]
    split <;> simp
  | a :: b :: rest2 =>
    simp only [url_decode_ref, cstr_at, List.getD_cons_zero, List.getD_cons_succ,
      List.length_cons, List.drop_succ_cons, List.drop_zero]
    have h2 : 2 ≤ rest2.length + 1 + 1 := by omega
    simp only [h2, true_and]
    split
    · rfl
    · split <;> simp_all

theorem url_decode_ref_length_pos (form : Bool) (c : Char) (rest : List Char) :
    0 < (url_decode_ref form (c :: rest)).length := by
  rw [url_decode_ref_cons]
  split <;> simp

theorem set_take_succ {α : Type} (l : List α) (j : Nat) (v : α) (hj : j < l.length) :
    (l.set j v).take (j + 1) = l.take j ++ [v] := by
  rw [List.set_eq_take_append_cons_drop, if_pos hj]
  have hl : (l.take j).length = j := by rw [List.length_take]; omega
  rw [List.take_append_eq_append_take, hl]
  simp

theorem set_drop_succ {α : Type} (l : List α) (j k : Nat) (v : α) :
    (l.set j v).drop (j + 1 + k) = l.drop (j + 1 + k) :=
  List.drop_set_of_lt v l (by omega)

theorem cstr_at_drop (l : List Char) (k m : Nat) : cstr_at (l.drop k) m = cstr_at l (k + m) := by
  simp [cstr_at, List.getElem?_drop]

theorem drop_eq_cstr_at_cons (l : List Char) (i : Nat) (h : i < l.length) :
    l.drop i = cstr_at l i :: l.drop (i + 1) := by
  rw [List.drop_eq_getElem_cons h]
  simp [cstr_at, List.getElem?_eq_getElem h]

/-- The loop of `mg_url_decode` from the cursors `i` and `j`: it writes the
reference decoding of the rest of the source, cut at the room left, and ends
with `i >= src_len` exactly when all of it fits. -/
theorem mg_url_decode_loop_spec (src : List Char) (dst_len : Int) (form : Int) :
    ∀ (fuel i j : Nat) (dst : List Char), i ≤ src.length → src.length - i ≤ fuel →
      (j : Int) ≤ dst_len - 1 → dst_len ≤ dst.length →
      (mg_url_decode_loop src src.length dst_len form fuel i j dst).2.1 =
        j + min (url_decode_ref (decide (form ≠ 0)) (src.drop i)).length
              (dst_len - 1 - j).toNat ∧
      (mg_url_decode_loop src src.length dst_len form fuel i j dst).2.2 =
        dst.take j ++
          (url_decode_ref (decide (form ≠ 0)) (src.drop i)).take
            (min (url_decode_ref (decide (form ≠ 0)) (src.drop i)).length
              (dst_len - 1 - j).toNat) ++
          dst.drop (j + min (url_decode_ref (decide (form ≠ 0)) (src.drop i)).length
              (dst_len - 1 - j).toNat) ∧
      (src.length ≤ (mg_url_decode_loop src src.length dst_len form fuel i j dst).1 ↔
        (url_decode_ref (decide (form ≠ 0)) (src.drop i)).length ≤ (dst_len - 1 - j).toNat) := by
  intro fuel
  induction fuel with
  | zero =>
    intro i j dst hi hf hj hd
    have hin : i = src.length := by omega
    subst hin
    simp [mg_url_decode_loop, url_decode_ref]
  | succ fuel ih =>
    intro i j dst hi hf hj hd
    by_cases hlt : ((i : Int) < (src.length : Int) ∧ (j : Int) < dst_len - 1)
    · obtain ⟨hlt1, hlt2⟩ := hlt
      have hi' : i < src.length := by omega
      have hjl : j < dst.length := by omega
      have hdrop := drop_eq_cstr_at_cons src i hi'
      have hlen1 : (src.drop (i + 1)).length = src.length - (i + 1) := List.length_drop _ _
      have e0 : cstr_at (src.drop (i + 1)) 0 = cstr_at src (i + 1) := by
        rw [cstr_at_drop]
      have e1 : cstr_at (src.drop (i + 1)) 1 = cstr_at src (i + 2) := by
        rw [cstr_at_drop]
      have hroom : (dst_len - 1 - (j : Int)).toNat =
          (dst_len - 1 - ((j + 1 : Nat) : Int)).toNat + 1 := by omega
      by_cases hdec : cstr_at src i = '%' ∧ (i : Int) < (src.length : Int) - 2 ∧
          isxdigit (cstr_at src (i + 1)) = true ∧ isxdigit (cstr_at src (i + 2)) = true
      · obtain ⟨h1, h2, h3, h4⟩ := id hdec
        have hstep : mg_url_decode_loop src src.length dst_len form (fuel + 1) i j dst =
            mg_url_decode_loop src src.length dst_len form fuel (i + 2 + 1) (j + 1)
              (dst.set j (to_char ((HEXTOI (lowercase (cstr_at src (i + 1))) <<< 4) |||
                HEXTOI (lowercase (cstr_at src (i + 2)))))) := by
          rw [mg_url_decode_loop]
          rw [if_pos ⟨hlt1, hlt2⟩, if_pos hdec]
        have href : url_decode_ref (decide (form ≠ 0)) (src.drop i) =
            to_char ((HEXTOI (lowercase (cstr_at src (i + 1))) <<< 4) |||
                HEXTOI (lowercase (cstr_at src (i + 2)))) ::
              url_decode_ref (decide (form ≠ 0)) (src.drop (i + 2 + 1)) := by
          rw [hdrop, url_decode_ref_cons, e0, e1,
            if_pos ⟨h1, by rw [hlen1]; omega, (isxdigit_iff _).mp h3, (isxdigit_iff _).mp h4⟩,
            hex_byte _ _ h3 h4, List.drop_drop]
        generalize to_char ((HEXTOI (lowercase (cstr_at src (i + 1))) <<< 4) |||
                HEXTOI (lowercase (cstr_at src (i + 2)))) = v at hstep href
        obtain ⟨r1, r2, r3⟩ := ih (i + 2 + 1) (j + 1) (dst.set j v) (by omega) (by omega)
          (by omega) (by rw [List.length_set]; exact hd)
        rw [hstep, href]
        generalize url_decode_ref (decide (form ≠ 0)) (src.drop (i + 2 + 1)) = D at r1 r2 r3 ⊢
        generalize mg_url_decode_loop src src.length dst_len form fuel (i + 2 + 1) (j + 1) _ = r
          at r1 r2 r3 ⊢
        have hmin : min (D.length + 1) ((dst_len - 1 - ((j + 1 : Nat) : Int)).toNat + 1) =
            min D.length (dst_len - 1 - ((j + 1 : Nat) : Int)).toNat + 1 := by omega
        rw [hroom, List.length_cons, hmin]
        refine ⟨by rw [r1]; omega, ?_, by rw [r3]; omega⟩
        rw [r2, set_take_succ _ _ _ hjl, set_drop_succ, List.take_succ_cons]
        simp only [List.append_assoc, List.singleton_append]
        rw [show j + 1 + min D.length (dst_len - 1 - ((j + 1 : Nat) : Int)).toNat =
          j + (min D.length (dst_len - 1 - ((j + 1 : Nat) : Int)).toNat + 1) by omega]
      · have hstep : mg_url_decode_loop src src.length dst_len form (fuel + 1) i j dst =
            mg_url_decode_loop src src.length dst_len form fuel (i + 1) (j + 1)
              (dst.set j (if decide (form ≠ 0) = true ∧ cstr_at src i = '+' then ' '
                else cstr_at src i)) := by
          rw [mg_url_decode_loop]
          rw [if_pos ⟨hlt1, hlt2⟩, if_neg hdec]
          by_cases hp : form ≠ 0 ∧ cstr_at src i = '+'
          · rw [if_pos hp, if_pos ⟨by simpa using hp.1, hp.2⟩]
          · rw [if_neg hp, if_neg (by simpa using hp)]
        have href : url_decode_ref (decide (form ≠ 0)) (src.drop i) =
            (if decide (form ≠ 0) = true ∧ cstr_at src i = '+' then ' ' else cstr_at src i) ::
              url_decode_ref (decide (form ≠ 0)) (src.drop (i + 1)) := by
          rw [hdrop, url_decode_ref_cons, e0, e1, if_neg]
          rintro ⟨h1, h2, h3, h4⟩
          rw [hlen1] at h2
          exact hdec ⟨h1, by omega, (isxdigit_iff _).mpr h3, (isxdigit_iff _).mpr h4⟩
        generalize (if decide (form ≠ 0) = true ∧ cstr_at src i = '+' then ' '
                else cstr_at src i) = v at hstep href
        obtain ⟨r1, r2, r3⟩ := ih (i + 1) (j + 1) (dst.set j v) (by omega) (by omega)
          (by omega) (by rw [List.length_set]; exact hd)
        rw [hstep, href]
        generalize url_decode_ref (decide (form ≠ 0)) (src.drop (i + 1)) = D at r1 r2 r3 ⊢
        generalize mg_url_decode_loop src src.length dst_len form fuel (i + 1) (j + 1) _ = r
          at r1 r2 r3 ⊢
        have hmin : min (D.length + 1) ((dst_len - 1 - ((j + 1 : Nat) : Int)).toNat + 1) =
            min D.length (dst_len - 1 - ((j + 1 : Nat) : Int)).toNat + 1 := by omega
        rw [hroom, List.length_cons, hmin]
        refine ⟨by rw [r1]; omega, ?_, by rw [r3]; omega⟩
        rw [r2, set_take_succ _ _ _ hjl, set_drop_succ, List.take_succ_cons]
        simp only [List.append_assoc, List.singleton_append]
        rw [show j + 1 + min D.length (dst_len - 1 - ((j + 1 : Nat) : Int)).toNat =
          j + (min D.length (dst_len - 1 - ((j + 1 : Nat) : Int)).toNat + 1) by omega]
    · have hstep : mg_url_decode_loop src src.length dst_len form (fuel + 1) i j dst =
          (i, j, dst) := by
        rw [mg_url_decode_loop, if_neg hlt]
      rw [hstep]
      by_cases hin : i = src.length
      · subst hin
        simp [url_decode_ref]
      · have hi' : i < src.length := by omega
        have hj0 : (dst_len - 1 - (j : Int)).toNat = 0 := by omega
        have hpos : 0 < (url_decode_ref (decide (form ≠ 0)) (src.drop i)).length := by
          rw [drop_eq_cstr_at_cons src i hi']
          exact url_decode_ref_length_pos _ _ _
        rw [hj0]
        simp only [Nat.min_zero, Nat.add_zero, List.take_zero, List.append_nil,
          List.take_append_drop, true_and]
        omega

theorem cstr_at_take (l : List Char) (n k : Nat) (h : k < n) :
    cstr_at (l.take n) k = cstr_at l k := by
  simp [cstr_at, List.getElem?_take_of_lt h]

/-- The loop of `mg_url_decode` reads the source below `src_len` only. -/
theorem mg_url_decode_loop_take (src : List Char) (n : Nat) (dst_len : Int) (form : Int) :
    ∀ (fuel i j : Nat) (dst : List Char),
      mg_url_decode_loop src n dst_len form fuel i j dst =
        mg_url_decode_loop (src.take n) n dst_len form fuel i j dst := by
  intro fuel
  induction fuel with
  | zero => intro i j dst; rfl
  | succ fuel ih =>
    intro i j dst
    rw [mg_url_decode_loop, mg_url_decode_loop]
    by_cases hlt : ((i : Int) < (n : Int) ∧ (j : Int) < dst_len - 1)
    · have hi : i < n := by omega
      rw [if_pos hlt, if_pos hlt, cstr_at_take src n i hi]
      by_cases h2 : (i : Int) < (n : Int) - 2
      · rw [cstr_at_take src n (i + 1) (by omega), cstr_at_take src n (i + 2) (by omega)]
        simp only [ih]
      · have hn1 : ¬ (cstr_at src i = '%' ∧ (i : Int) < (n : Int) - 2 ∧
            isxdigit (cstr_at src (i + 1)) = true ∧ isxdigit (cstr_at src (i + 2)) = true) :=
          fun h => h2 h.2.1
        have hn2 : ¬ (cstr_at src i = '%' ∧ (i : Int) < (n : Int) - 2 ∧
            isxdigit (cstr_at (src.take n) (i + 1)) = true ∧
            isxdigit (cstr_at (src.take n) (i + 2)) = true) :=
          fun h => h2 h.2.1
        rw [if_neg hn1, if_neg hn2]
        simp only [ih]
    · rw [if_neg hlt, if_neg hlt]

theorem url_decode_ref_length_le (form : Bool) : ∀ (n : Nat) (l : List Char), l.length ≤ n →
    (url_decode_ref form l).length ≤ l.length := by
  intro n
  induction n with
  | zero =>
    intro l hl
    have : l = [] := List.eq_nil_of_length_eq_zero (by omega)
    subst this
    simp [url_decode_ref]
  | succ n ih =>
    intro l hl
    match l with
    | [] => simp [url_decode_ref]
    | c :: rest =>
      rw [url_decode_ref_cons]
      split
      · have := ih (rest.drop 2) (by simp at hl ⊢; omega)
        simp only [List.length_cons, List.length_drop] at this ⊢
        omega
      · have := ih rest (by simp at hl ⊢; omega)
        simp only [List.length_cons]
        omega

/-- The function `mg_url_decode` writes the reference decoding of the source,
cut at `dst_len - 1` characters, and a NUL after it; it returns the decoded
length when all of it fits and -1 otherwise. -/
theorem mg_url_decode_spec (src dst : List Char) (src_len dst_len form : Int)
    (h0 : 0 ≤ src_len) (h1 : src_len ≤ src.length) (h2 : 1 ≤ dst_len)
    (h3 : dst_len ≤ dst.length) :
    mg_url_decode src src_len dst dst_len form =
      (if ((url_decode_ref (decide (form ≠ 0)) (src.take src_len.toNat)).length : Int) ≤
            dst_len - 1 then
          ((url_decode_ref (decide (form ≠ 0)) (src.take src_len.toNat)).length : Int)
        else -1,
       (url_decode_ref (decide (form ≠ 0)) (src.take src_len.toNat)).take (dst_len - 1).toNat ++
         Char.ofNat 0 ::
           dst.drop (min (url_decode_ref (decide (form ≠ 0)) (src.take src_len.toNat)).length
             (dst_len - 1).toNat + 1)) := by
  obtain ⟨n, hn⟩ : ∃ n : Nat, src_len = n := ⟨src_len.toNat, by omega⟩
  subst hn
  have hlen : (src.take n).length = n := by rw [List.length_take]; omega
  have key := mg_url_decode_loop_spec (src.take n) dst_len form n 0 0 dst (by omega)
    (by omega) (by omega) h3
  rw [hlen] at key
  unfold mg_url_decode
  simp only [Int.toNat_ofNat]
  rw [mg_url_decode_loop_take src n dst_len form n 0 0 dst]
  simp only [List.drop_zero, Nat.cast_zero, sub_zero, List.take_zero, List.nil_append,
    Nat.zero_add] at key
  obtain ⟨k1, k2, k3⟩ := key
  generalize mg_url_decode_loop (src.take n) n dst_len form n 0 0 dst = r at k1 k2 k3 ⊢
  generalize url_decode_ref (decide (form ≠ 0)) (src.take n) = D at k1 k2 k3 ⊢
  have hiff : ((r.1 : Int) ≥ (n : Int)) ↔ ((D.length : Int) ≤ dst_len - 1) := by
    constructor
    · intro h; have := k3.mp (by omega); omega
    · intro h; have := k3.mpr (by omega); omega
  have hm : min D.length (dst_len - 1).toNat ≤ dst.length := by omega
  have htl : (D.take (min D.length (dst_len - 1).toNat)).length =
      min D.length (dst_len - 1).toNat := by
    rw [List.length_take]; omega
  have htake : D.take (min D.length (dst_len - 1).toNat) = D.take (dst_len - 1).toNat := by
    rw [Nat.min_comm, ← List.take_take]
    simp
  refine Prod.ext ?_ ?_
  · simp only
    by_cases hfit : (D.length : Int) ≤ dst_len - 1
    · rw [if_pos (hiff.mpr hfit), if_pos hfit, k1]
      congr 1
      omega
    · rw [if_neg (fun h => hfit (hiff.mp h)), if_neg hfit]
  · simp only
    rw [k1, k2, List.set_append_right _ _ (by rw [htl]), htl, Nat.sub_self, htake]
    have hlt : min D.length (dst_len - 1).toNat < dst.length := by omega
    rw [List.drop_eq_getElem_cons hlt]
    rfl

/-- C11: when the destination is larger than the source (`dst_len > src_len`),
`mg_url_decode` writes the reference decoding of the source (each `%` followed
by two hexadecimal digits inside the source becomes the byte with that value,
`+` becomes a space exactly when `is_form_url_encoded` is not zero, every
other character, a `%` of a malformed sequence too, is copied), followed by a
NUL, and returns its length. -/
theorem mg_url_decode_eq_ref (src dst : List Char) (dst_len form : Int)
    (h1 : (src.length : Int) < dst_len) (h3 : dst_len ≤ dst.length) :
    mg_url_decode src src.length dst dst_len form =
      (((url_decode_ref (decide (form ≠ 0)) src).length : Int),
       url_decode_ref (decide (form ≠ 0)) src ++
         Char.ofNat 0 :: dst.drop ((url_decode_ref (decide (form ≠ 0)) src).length + 1)) := by
  have hle := url_decode_ref_length_le (decide (form ≠ 0)) src.length src (le_refl _)
  have key := mg_url_decode_spec src dst src.length dst_len form (by omega) (le_refl _)
    (by omega) h3
  simp only [Int.toNat_ofNat, List.take_length] at key
  rw [key, if_pos (by omega), Nat.min_eq_left (by omega), List.take_of_length_le (by omega)]

/-- The decoding of `a%41+b%4` in form-url-encoded mode into a buffer of 12
characters: `aA b%4`, of length 6. -/
theorem mg_url_decode_eq_ref_witness :
    mg_url_decode "a%41+b%4".toList 8 (List.replicate 12 'x') 12 1 =
      (6, "aA b%4".toList ++ Char.ofNat 0 :: List.replicate 5 'x') ∧
    mg_url_decode "a%41+b%4".toList ("a%41+b%4".toList.length : Nat)
        (List.replicate 12 'x') 12 1 =
      (((url_decode_ref (decide ((1 : Int) ≠ 0)) "a%41+b%4".toList).length : Int),
       url_decode_ref (decide ((1 : Int) ≠ 0)) "a%41+b%4".toList ++
         Char.ofNat 0 :: (List.replicate 12 'x').drop
           ((url_decode_ref (decide ((1 : Int) ≠ 0)) "a%41+b%4".toList).length + 1)) :=
  ⟨by decide,
   mg_url_decode_eq_ref "a%41+b%4".toList (List.replicate 12 'x') 12 1 (by decide) (by decide)⟩

/-- C12: for `src_len >= 0` and `dst_len >= 1`, `mg_url_decode` returns the
decoded length when the whole decoding of the source fits in `dst_len - 1`
characters and -1 exactly when it does not; in both cases the characters
written are the decoding cut at `dst_len - 1`, a NUL is written at `dst[j]`
with `j` the number of characters written, `0 <= j <= dst_len - 1`, and the
memory from `dst[dst_len]` on is left as it was. -/
theorem mg_url_decode_return (src dst : List Char) (src_len dst_len form : Int)
    (h0 : 0 ≤ src_len) (h1 : src_len ≤ src.length) (h2 : 1 ≤ dst_len)
    (h3 : dst_len ≤ dst.length) :
    (((url_decode_ref (decide (form ≠ 0)) (src.take src_len.toNat)).length : Int) ≤ dst_len - 1 →
      (mg_url_decode src src_len dst dst_len form).1 =
        (url_decode_ref (decide (form ≠ 0)) (src.take src_len.toNat)).length) ∧
    ((mg_url_decode src src_len dst dst_len form).1 = -1 ↔
      dst_len - 1 < ((url_decode_ref (decide (form ≠ 0)) (src.take src_len.toNat)).length : Int)) ∧
    (mg_url_decode src src_len dst dst_len form).2.take
        (min (url_decode_ref (decide (form ≠ 0)) (src.take src_len.toNat)).length
          (dst_len - 1).toNat) =
      (url_decode_ref (decide (form ≠ 0)) (src.take src_len.toNat)).take (dst_len - 1).toNat ∧
    (mg_url_decode src src_len dst dst_len form).2[
        min (url_decode_ref (decide (form ≠ 0)) (src.take src_len.toNat)).length
          (dst_len - 1).toNat]? = some (Char.ofNat 0) ∧
    ((min (url_decode_ref (decide (form ≠ 0)) (src.take src_len.toNat)).length
        (dst_len - 1).toNat : Nat) : Int) ≤ dst_len - 1 ∧
    (∀ k : Nat, dst_len ≤ (k : Int) →
      (mg_url_decode src src_len dst dst_len form).2[k]? = dst[k]?) := by
  rw [mg_url_decode_spec src dst src_len dst_len form h0 h1 h2 h3]
  generalize url_decode_ref (decide (form ≠ 0)) (src.take src_len.toNat) = D
  have htl : (D.take (dst_len - 1).toNat).length = min D.length (dst_len - 1).toNat := by
    rw [List.length_take]; omega
  refine ⟨?_, ?_, ?_, ?_, by omega, ?_⟩
  · intro hfit
    simp only [if_pos hfit]
  · simp only
    by_cases hfit : (D.length : Int) ≤ dst_len - 1
    · rw [if_pos hfit]
      constructor
      · intro h; omega
      · intro h; omega
    · rw [if_neg hfit]
      constructor
      · intro _; omega
      · intro _; rfl
  · simp only
    rw [← htl, List.take_left]
  · simp only
    rw [← htl, List.getElem?_append_right (le_refl _), Nat.sub_self, List.getElem?_cons_zero]
  · intro k hk
    simp only
    have hkm : (D.take (dst_len - 1).toNat).length ≤ k := by rw [htl]; omega
    rw [List.getElem?_append_right hkm, htl]
    obtain ⟨d, hd⟩ : ∃ d, k - min D.length (dst_len - 1).toNat = d + 1 :=
      ⟨k - min D.length (dst_len - 1).toNat - 1, by omega⟩
    rw [hd, List.getElem?_cons_succ, List.getElem?_drop]
    congr 1
    omega

/-- The decoding of `a%41+b%4` into a buffer of 4 characters: `aA+` is written
with a NUL after it, the rest of the memory is untouched and -1 is returned. -/
theorem mg_url_decode_return_witness :
    mg_url_decode "a%41+b%4".toList 8 (List.replicate 12 'x') 4 0 =
      (-1, "aA+".toList ++ Char.ofNat 0 :: List.replicate 8 'x') ∧
    ((mg_url_decode "a%41+b%4".toList 8 (List.replicate 12 'x') 4 0).1 = -1 ↔
      (4 : Int) - 1 < ((url_decode_ref (decide ((0 : Int) ≠ 0))
        ("a%41+b%4".toList.take (8 : Int).toNat)).length : Int)) :=
  ⟨by decide,
   (mg_url_decode_return "a%41+b%4".toList (List.replicate 12 'x') 8 4 0 (by decide)
      (by decide) (by decide) (by decide)).2.1⟩

/-! ## URL encoding -/

theorem set3_take {α : Type} (l : List α) (d : Nat) (a b c : α) (hd : d + 2 < l.length) :
    (((l.set d a).set (d + 1) b).set (d + 2) c).take (d + 2 + 1) = l.take d ++ [a, b, c] := by
  rw [set_take_succ _ _ _ (by simp only [List.length_set]; omega),
    set_take_succ _ _ _ (by simp only [List.length_set]; omega),
    set_take_succ _ _ _ (by omega)]
  simp

theorem set3_drop {α : Type} (l : List α) (d k : Nat) (a b c : α) :
    (((l.set d a).set (d + 1) b).set (d + 2) c).drop (d + 2 + 1 + k) = l.drop (d + 2 + 1 + k) := by
  rw [set_drop_succ,
    show d + 2 + 1 + k = d + 1 + 1 + (k + 1) by omega, set_drop_succ,
    show d + 1 + 1 + (k + 1) = d + 1 + (k + 2) by omega, set_drop_succ]

theorem url_safe_eq (c : Char) (hc : c ≠ Char.ofNat 0) :
    (isalnum c || strchr_found dont_escape c) = url_safe c := by
  have h0 : (c == Char.ofNat 0) = false := by simpa using hc
  simp only [isalnum, strchr_found, url_safe, dont_escape, h0, Bool.or_false]

/-- The loop of `mg_url_encode` from the offsets `s` and `d`, when the encoding
of the rest of the source fits before `end`: it writes that encoding. -/
theorem mg_url_encode_loop_spec (src : List Char) (dst_len : Int) (hsrc : nul_free src) :
    ∀ (fuel s d : Nat) (dst : List Char), s ≤ src.length → src.length - s ≤ fuel →
      ((d + (url_encode_ref (src.drop s)).length : Nat) : Int) ≤ dst_len - 1 →
      dst_len ≤ dst.length →
      (mg_url_encode_loop src dst_len fuel s d dst).2.1 =
        d + (url_encode_ref (src.drop s)).length ∧
      (mg_url_encode_loop src dst_len fuel s d dst).2.2 =
        dst.take d ++ url_encode_ref (src.drop s) ++
          dst.drop (d + (url_encode_ref (src.drop s)).length) := by
  intro fuel
  induction fuel with
  | zero =>
    intro s d dst hs hf hfit hd
    have : s = src.length := by omega
    subst this
    simp [mg_url_encode_loop, url_encode_ref]
  | succ fuel ih =>
    intro s d dst hs hf hfit hd
    by_cases hend : s = src.length
    · subst hend
      have hnul : cstr_at src src.length = Char.ofNat 0 := by
        simp [cstr_at]
      rw [mg_url_encode_loop, if_neg (fun h => h.1 hnul)]
      simp [url_encode_ref]
    · have hs' : s < src.length := by omega
      have hdrop := drop_eq_cstr_at_cons src s hs'
      have hmem : cstr_at src s ∈ src := by
        have : cstr_at src s ∈ src.drop s := by rw [hdrop]; exact List.mem_cons_self _ _
        exact List.mem_of_mem_drop this
      have hc : cstr_at src s ≠ Char.ofNat 0 := hsrc _ hmem
      have hsafe := url_safe_eq _ hc
      rw [hdrop] at hfit ⊢
      rw [url_encode_ref] at hfit ⊢
      by_cases hk : url_safe (cstr_at src s) = true
      · rw [if_pos hk] at hfit ⊢
        simp only [List.singleton_append, List.length_cons] at hfit ⊢
        have hdl : (d : Int) < dst_len - 1 := by omega
        obtain ⟨r1, r2⟩ := ih (s + 1) (d + 1) (dst.set d (cstr_at src s)) (by omega) (by omega) (by omega)
          (by rw [List.length_set]; exact hd)
        rw [mg_url_encode_loop, if_pos ⟨hc, hdl⟩, if_pos (by rw [hsafe]; exact hk)]
        generalize url_encode_ref (src.drop (s + 1)) = E at r1 r2 hfit ⊢
        refine ⟨by rw [r1]; omega, ?_⟩
        rw [r2, set_take_succ _ _ _ (by omega), set_drop_succ]
        simp only [List.append_assoc, List.singleton_append]
        rw [show d + 1 + E.length = d + (E.length + 1) by omega]
      · rw [if_neg hk] at hfit ⊢
        simp only [List.cons_append, List.nil_append, List.length_cons] at hfit ⊢
        have hdl : (d : Int) < dst_len - 1 := by omega
        have hdl2 : (d : Int) + 2 < dst_len - 1 := by omega
        obtain ⟨r1, r2⟩ := ih (s + 1) (d + 2 + 1)
          (((dst.set d '%').set (d + 1) (cstr_at hex ((cstr_at src s).toNat >>> 4))).set (d + 2)
            (cstr_at hex ((cstr_at src s).toNat &&& 0xf))) (by omega) (by omega) (by omega)
          (by simp only [List.length_set]; exact hd)
        rw [mg_url_encode_loop, if_pos ⟨hc, hdl⟩, if_neg (by rw [hsafe]; exact hk), if_pos hdl2]
        generalize url_encode_ref (src.drop (s + 1)) = E at r1 r2 hfit ⊢
        refine ⟨by rw [r1]; omega, ?_⟩
        rw [r2, set3_take _ _ _ _ _ (by omega), set3_drop]
        simp only [List.append_assoc, List.cons_append, List.nil_append]
        rw [show d + 2 + 1 + E.length = d + (E.length + 1 + 1 + 1) by omega]
        rfl

/-- When the destination is large enough, `mg_url_encode` writes the reference
encoding of the source and a NUL after it. -/
theorem mg_url_encode_fits (src dst : List Char) (dst_len : Int) (hsrc : nul_free src)
    (hfit : ((url_encode_ref src).length : Int) + 1 ≤ dst_len) (hd : dst_len ≤ dst.length) :
    mg_url_encode src dst dst_len =
      url_encode_ref src ++ Char.ofNat 0 :: dst.drop ((url_encode_ref src).length + 1) := by
  obtain ⟨r1, r2⟩ := mg_url_encode_loop_spec src dst_len hsrc src.length 0 0 dst (by omega)
    (by omega) (by simp only [List.drop_zero, Nat.zero_add]; omega) hd
  simp only [List.drop_zero, Nat.zero_add, List.take_zero, List.nil_append] at r1 r2
  unfold mg_url_encode
  simp only
  rw [r1, r2, List.set_append_right _ _ (le_refl _), Nat.sub_self]
  have hlt : (url_encode_ref src).length < dst.length := by omega
  rw [List.drop_eq_getElem_cons hlt]
  rfl

/-- C13: for a NUL-terminated source and a destination large enough for the
full result, `mg_url_encode` writes the reference encoding (each ASCII
alphanumeric and each of `._-$,;~()` unchanged, every other character `b` as
`%` and the lowercase hexadecimal digits of `b >> 4` and `b & 0xf`, in source
order) followed by a NUL. -/
theorem mg_url_encode_eq_ref (src dst : List Char) (dst_len : Int) (hsrc : nul_free src)
    (hfit : ((url_encode_ref src).length : Int) + 1 ≤ dst_len) (hd : dst_len ≤ dst.length) :
    mg_url_encode src dst dst_len =
      url_encode_ref src ++ Char.ofNat 0 :: dst.drop ((url_encode_ref src).length + 1) :=
  mg_url_encode_fits src dst dst_len hsrc hfit hd

/-- The encoding of `a b/~` into a buffer of 12 characters: `a%20b%2f~`. -/
theorem mg_url_encode_eq_ref_witness :
    mg_url_encode "a b/~".toList (List.replicate 12 'x') 12 =
      "a%20b%2f~".toList ++ Char.ofNat 0 :: List.replicate 2 'x' ∧
    mg_url_encode "a b/~".toList (List.replicate 12 'x') 12 =
      url_encode_ref "a b/~".toList ++
        Char.ofNat 0 :: (List.replicate 12 'x').drop ((url_encode_ref "a b/~".toList).length + 1) :=
  ⟨by decide,
   mg_url_encode_eq_ref "a b/~".toList (List.replicate 12 'x') 12
    (by intro c hc; revert c; decide) (by decide) (by decide)⟩

/-! ## Round trip on safe strings -/

theorem url_safe_ne (c : Char) (h : url_safe c = true) :
    c ≠ '%' ∧ c ≠ '+' ∧ c ≠ Char.ofNat 0 := by
  refine ⟨?_, ?_, ?_⟩ <;> (intro hc; subst hc; revert h; decide)

theorem url_encode_ref_safe : ∀ (s : List Char), (∀ c ∈ s, url_safe c = true) →
    url_encode_ref s = s
  | [], _ => by simp [url_encode_ref]
  | c :: rest, h => by
    have hc := h c (List.mem_cons_self _ _)
    have ih := url_encode_ref_safe rest (fun x hx => h x (List.mem_cons_of_mem _ hx))
    rw [url_encode_ref, if_pos hc, ih]
    rfl

theorem url_decode_ref_plain (form : Bool) : ∀ (s : List Char),
    (∀ c ∈ s, c ≠ '%' ∧ c ≠ '+') → url_decode_ref form s = s
  | [], _ => by simp [url_decode_ref]
  | c :: rest, h => by
    have hc := h c (List.mem_cons_self _ _)
    have ih := url_decode_ref_plain form rest (fun x hx => h x (List.mem_cons_of_mem _ hx))
    rw [url_decode_ref_cons, if_neg (fun hx => hc.1 hx.1), if_neg (fun hx => hc.2 hx.2), ih]

theorem c_string_append_nul (s rest : List Char) (hs : nul_free s) :
    c_string (s ++ Char.ofNat 0 :: rest) = s := by
  unfold c_string
  induction s with
  | nil => simp [List.takeWhile]
  | cons c t ih =>
    have hc := (nul_free_cons hs).1
    have hne : (c != Char.ofNat 0) = true := by simpa using hc
    rw [List.cons_append, List.takeWhile_cons, if_pos hne, ih (nul_free_cons hs).2]

/-- C14: for a string of ASCII alphanumerics and the characters `._-$,;~()`,
with buffers large enough, `mg_url_encode` leaves the string itself in its
buffer, and `mg_url_decode` applied to that buffer and its `strlen` yields the
string, NUL-terminated, and returns its length, in both decoding modes. -/
theorem url_round_trip_safe (s dst1 dst2 : List Char) (n1 n2 form : Int)
    (hsafe : ∀ c ∈ s, url_safe c = true)
    (h1 : (s.length : Int) + 1 ≤ n1) (h1' : n1 ≤ dst1.length)
    (h2 : (s.length : Int) + 1 ≤ n2) (h2' : n2 ≤ dst2.length) :
    c_string (mg_url_encode s dst1 n1) = s ∧
    mg_url_decode (mg_url_encode s dst1 n1) (c_string (mg_url_encode s dst1 n1)).length
        dst2 n2 form =
      ((s.length : Int), s ++ Char.ofNat 0 :: dst2.drop (s.length + 1)) := by
  have hnul : nul_free s := fun c hc => (url_safe_ne c (hsafe c hc)).2.2
  have hplain : ∀ c ∈ s, c ≠ '%' ∧ c ≠ '+' := fun c hc =>
    ⟨(url_safe_ne c (hsafe c hc)).1, (url_safe_ne c (hsafe c hc)).2.1⟩
  have henc := url_encode_ref_safe s hsafe
  have he := mg_url_encode_fits s dst1 n1 hnul (by rw [henc]; exact h1) h1'
  rw [henc] at he
  have hcs : c_string (mg_url_encode s dst1 n1) = s := by
    rw [he]; exact c_string_append_nul s _ hnul
  refine ⟨hcs, ?_⟩
  rw [hcs]
  have hlen : (mg_url_encode s dst1 n1).length = dst1.length := by
    unfold mg_url_encode
    simp only [List.length_set]
    have := (mg_url_encode_loop_spec s n1 hnul s.length 0 0 dst1 (by omega) (by omega)
      (by simp only [List.drop_zero, Nat.zero_add, henc]; omega) h1').2
    rw [this]
    simp only [List.drop_zero, Nat.zero_add, List.take_zero, List.nil_append, henc,
      List.length_append, List.length_drop]
    omega
  have hd := mg_url_decode_spec (mg_url_encode s dst1 n1) dst2 s.length n2 form (by omega)
    (by rw [hlen]; omega) (by omega) h2'
  have htake : (mg_url_encode s dst1 n1).take s.length = s := by
    rw [he, List.take_left]
  simp only [Int.toNat_ofNat, htake, url_decode_ref_plain _ s hplain] at hd
  rw [hd, if_pos (by omega), Nat.min_eq_left (by omega), List.take_of_length_le (by omega)]

/-- The round trip of `Ab9._-$,;~()` through buffers of 16 characters. -/
theorem url_round_trip_safe_witness :
    c_string (mg_url_encode "Ab9._-$,;~()".toList (List.replicate 16 'x') 16) =
      "Ab9._-$,;~()".toList ∧
    mg_url_decode (mg_url_encode "Ab9._-$,;~()".toList (List.replicate 16 'x') 16)
        (c_string (mg_url_encode "Ab9._-$,;~()".toList (List.replicate 16 'x') 16)).length
        (List.replicate 16 'y') 16 1 =
      ((("Ab9._-$,;~()".toList.length : Nat) : Int),
       "Ab9._-$,;~()".toList ++ Char.ofNat 0 ::
         (List.replicate 16 'y').drop ("Ab9._-$,;~()".toList.length + 1)) :=
  url_round_trip_safe "Ab9._-$,;~()".toList (List.replicate 16 'x') (List.replicate 16 'y')
    16 16 1 (by decide) (by decide) (by decide) (by decide) (by decide)

/-! ## Form variables -/

theorem mg_strncasecmp_eq_zero_iff : ∀ (name q : List Char), nul_free name →
    name.length ≤ q.length →
    (mg_strncasecmp name q name.length = 0 ↔
      (q.take name.length).map lowercase = name.map lowercase)
  | [], q, _, _ => by simp [mg_strncasecmp]
  | a :: t, [], _, hl => by simp at hl
  | a :: t, b :: q, hn, hl => by
    have ha := (nul_free_cons hn).1
    have ih := mg_strncasecmp_eq_zero_iff t q (nul_free_cons hn).2
      (by simp only [List.length_cons] at hl; omega)
    simp only [List.length_cons, mg_strncasecmp, cstr_at, List.getD_cons_zero, List.tail_cons,
      List.take_succ_cons, List.map_cons, List.cons.injEq]
    by_cases hab : lowercase a = lowercase b
    · simp only [hab, ne_eq, not_true_eq_false, if_false, ha, true_and]
      exact ih
    · simp only [ne_eq, hab, not_false_eq_true, if_true]
      constructor
      · intro h
        exact absurd (char_toNat_injective (by omega)) hab
      · intro h
        exact absurd h.1.symm hab

theorem var_found_iff (data name : List Char) (p : Nat) (hname : nul_free name)
    (hp : p + name.length < data.length) :
    var_found data name p = true ↔ var_at data name p := by
  have hcmp := mg_strncasecmp_eq_zero_iff name (data.drop p) hname
    (by rw [List.length_drop]; omega)
  simp only [var_found, var_at, Bool.and_eq_true, Bool.or_eq_true, beq_iff_eq, hcmp, hp,
    true_and, and_assoc]

/-- The search loop of `mg_get_var` finds the first offset, from `p0` on, where
a pair named `name` starts. -/
theorem mg_get_var_loop_spec (data name : List Char) (hname : nul_free name) :
    ∀ (fuel p0 : Nat), data.length - p0 ≤ fuel →
      (mg_get_var_loop data data.length name fuel p0 = none →
        ∀ q, p0 ≤ q → ¬ var_at data name q) ∧
      (∀ p, mg_get_var_loop data data.length name fuel p0 = some p →
        var_at data name p ∧ p0 ≤ p ∧ ∀ q, p0 ≤ q → q < p → ¬ var_at data name q) := by
  intro fuel
  induction fuel with
  | zero =>
    intro p0 hf
    constructor
    · intro _ q hq hv
      have := hv.2.1
      omega
    · intro p h
      simp [mg_get_var_loop] at h
  | succ fuel ih =>
    intro p0 hf
    rw [mg_get_var_loop]
    by_cases hlt : p0 + name.length < data.length
    · rw [if_pos hlt]
      by_cases hfound : var_found data name p0 = true
      · rw [if_pos hfound]
        have hv := (var_found_iff data name p0 hname hlt).mp hfound
        constructor
        · intro h; cases h
        · intro p h
          have : p0 = p := Option.some.inj h
          subst this
          exact ⟨hv, le_refl _, fun q h1 h2 => by omega⟩
      · rw [if_neg hfound]
        have hnv : ¬ var_at data name p0 :=
          fun hv => hfound ((var_found_iff data name p0 hname hlt).mpr hv)
        obtain ⟨i1, i2⟩ := ih (p0 + 1) (by omega)
        constructor
        · intro h q hq
          by_cases hqe : q = p0
          · subst hqe; exact hnv
          · exact i1 h q (by omega)
        · intro p h
          obtain ⟨a, b, c⟩ := i2 p h
          refine ⟨a, by omega, fun q h1 h2 => ?_⟩
          by_cases hqe : q = p0
          · subst hqe; exact hnv
          · exact c q (by omega) h2
    · rw [if_neg hlt]
      constructor
      · intro _ q hq hv
        have := hv.2.1
        omega
      · intro p h; cases h

theorem take_indexOf_eq_takeWhile (c : Char) : ∀ (l : List Char),
    l.take (l.indexOf c) = l.takeWhile (fun x => x != c)
  | [] => by simp
  | a :: l => by
    rw [List.indexOf_cons, List.takeWhile_cons]
    by_cases h : a = c
    · subst h; simp
    · have h1 : (a == c) = false := by simpa using h
      have h2 : (a != c) = true := by simpa using h
      simp only [h1, h2, cond_false, if_true, List.take_succ_cons, Bool.false_eq_true, if_false]
      rw [take_indexOf_eq_takeWhile c l]

theorem indexOf_le_length' (c : Char) (l : List Char) : l.indexOf c ≤ l.length :=
  List.indexOf_le_length

theorem var_end (data : List Char) (p1 : Nat) :
    (match memchr (data.drop p1) '&' (data.length - p1) with
      | some k => p1 + k
      | none => data.length) - p1 = (data.drop p1).indexOf '&' := by
  have htake : (data.drop p1).take (data.length - p1) = data.drop p1 :=
    List.take_of_length_le (by rw [List.length_drop])
  have hle := indexOf_le_length' '&' (data.drop p1)
  have hlen : (data.drop p1).length = data.length - p1 := List.length_drop _ _
  unfold memchr
  rw [htake]
  by_cases hlt : (data.drop p1).indexOf '&' < (data.drop p1).length
  · rw [if_pos hlt]
    exact Nat.add_sub_cancel_left _ _
  · rw [if_neg hlt]
    show data.length - p1 = (data.drop p1).indexOf '&'
    omega

/-- Sizes beyond the range of `int` are narrowed at line 272: with
`dst_len = 2^32 + 3` the decoder is given 3, so the value `hello` is cut to
`he` and `mg_get_var` returns -2 (the first 8 bytes of the destination are
shown). -/
theorem mg_get_var_narrows_dst_len :
    mg_get_var (some "a=hello".toList) 7 (some "a".toList) (some (List.replicate 8 'x'))
        (2 ^ 32 + 3) =
      (-2, some ("he".toList ++ Char.ofNat 0 :: List.replicate 5 'x')) := by
  decide

/-- C16, as stated, fails: the data `A=1` has no pair whose key is the name
`a`, yet `mg_get_var` returns 1 and stores the value `1`: the key is compared
with the name ignoring case. -/
theorem mg_get_var_ignores_case :
    mg_get_var (some "A=1".toList) 3 (some "a".toList) (some (List.replicate 8 'x')) 8 =
      (1, some ('1' :: Char.ofNat 0 :: List.replicate 6 'x')) ∧
    "A".toList ≠ "a".toList ∧ "A".toList.map lowercase = "a".toList.map lowercase := by
  decide

/-- C16, amended, for data and destination sizes in the range of `int`:
`mg_get_var` returns -2 when the destination is NULL or of
size 0; with a destination of size at least 1 it returns -1 and stores the
empty string when no pair of the data has the name as its key, ignoring case;
otherwise, for the first pair whose key is the name ignoring case, it stores
the form-url-decoded value cut at `dst_len - 1` characters, NUL-terminated, and
returns its length when it fits and -2 when the destination is too small. A
pair starts at the start of the data or after a `&`, so a name that is only the
suffix of a longer key, or occurs inside a value, is not found. -/
theorem mg_get_var_spec (data name dst : List Char) (dst_len : Nat)
    (hname : nul_free name) (hdata : 0 < data.length) (hdata_int : data.length < 2 ^ 31)
    (hdl : 1 ≤ dst_len) (hdl_int : dst_len < 2 ^ 31) (hd : dst_len ≤ dst.length) :
    (∀ n, mg_get_var (some data) data.length (some name) none n = (-2, none)) ∧
    mg_get_var (some data) data.length (some name) (some dst) 0 = (-2, some dst) ∧
    ((∀ p, ¬ var_at data name p) →
      mg_get_var (some data) data.length (some name) (some dst) dst_len =
        (-1, some (dst.set 0 (Char.ofNat 0)))) ∧
    (∀ p, var_at data name p → (∀ q, q < p → ¬ var_at data name q) →
      mg_get_var (some data) data.length (some name) (some dst) dst_len =
        (if (url_decode_ref true (var_value data (p + name.length + 1))).length ≤ dst_len - 1
          then ((url_decode_ref true (var_value data (p + name.length + 1))).length : Int)
          else -2,
         some ((url_decode_ref true (var_value data (p + name.length + 1))).take (dst_len - 1) ++
           Char.ofNat 0 :: dst.drop
             (min (url_decode_ref true (var_value data (p + name.length + 1))).length
               (dst_len - 1) + 1)))) := by
  have hloop := mg_get_var_loop_spec data name hname data.length 0 (by omega)
  have hdl0 : dst_len ≠ 0 := by omega
  have hdata0 : data.length ≠ 0 := by omega
  refine ⟨fun n => rfl, by simp [mg_get_var], ?_, ?_⟩
  · intro hno
    simp only [mg_get_var, hdl0, hdata0, if_false]
    cases hres : mg_get_var_loop data data.length name data.length 0 with
    | none => rfl
    | some p => exact absurd (hloop.2 p hres).1 (hno p)
  · intro p hp hmin
    simp only [mg_get_var, hdl0, hdata0, if_false]
    cases hres : mg_get_var_loop data data.length name data.length 0 with
    | none => exact absurd hp (hloop.1 hres p (Nat.zero_le _))
    | some p' =>
      obtain ⟨a, _, c⟩ := hloop.2 p' hres
      have hpp : p' = p := by
        rcases Nat.lt_trichotomy p' p with h | h | h
        · exact absurd a (hmin p' h)
        · exact h
        · exact absurd hp (c p (Nat.zero_le _) h)
      subst hpp
      simp only
      have hp1 : p' + name.length + 1 ≤ data.length := by have := a.2.1; omega
      rw [var_end data _]
      have hk := indexOf_le_length' '&' (data.drop (p' + name.length + 1))
      have hkd : (data.drop (p' + name.length + 1)).length ≤ data.length := by
        rw [List.length_drop]; omega
      have hsrc : to_int (to_size_t
          (((data.drop (p' + name.length + 1)).indexOf '&' : Nat) : Int)) =
          (((data.drop (p' + name.length + 1)).indexOf '&' : Nat) : Int) := by
        unfold to_int to_size_t; omega
      have hdst : to_int (to_size_t (dst_len : Int)) = (dst_len : Int) := by
        unfold to_int to_size_t; omega
      rw [hsrc, hdst]
      have hspec := mg_url_decode_spec (data.drop (p' + name.length + 1))
        (dst.set 0 (Char.ofNat 0))
        (((data.drop (p' + name.length + 1)).indexOf '&' : Nat) : Int) (dst_len : Int) 1
        (by omega) (by omega) (by omega) (by rw [List.length_set]; omega)
      rw [hspec]
      simp only [Int.toNat_ofNat, take_indexOf_eq_takeWhile]
      have hone : decide ((1 : Int) ≠ 0) = true := by decide
      rw [hone]
      change _ = (if (url_decode_ref true (var_value data (p' + name.length + 1))).length ≤
        dst_len - 1 then _ else _, _)
      unfold var_value
      generalize url_decode_ref true
        ((data.drop (p' + name.length + 1)).takeWhile (fun x => x != '&')) = D
      have hcast : ((dst_len : Int) - 1).toNat = dst_len - 1 := by omega
      have hdrop : (dst.set 0 (Char.ofNat 0)).drop (min D.length (dst_len - 1) + 1) =
          dst.drop (min D.length (dst_len - 1) + 1) := by
        have := set_drop_succ dst 0 (min D.length (dst_len - 1)) (Char.ofNat 0)
        rw [show 0 + 1 + min D.length (dst_len - 1) = min D.length (dst_len - 1) + 1 by omega]
          at this
        exact this
      rw [hcast, hdrop]
      by_cases hfit : D.length ≤ dst_len - 1
      · have hfit' : (D.length : Int) ≤ (dst_len : Int) - 1 := by omega
        rw [if_pos hfit', if_pos hfit, if_neg (by omega)]
      · have hfit' : ¬ (D.length : Int) ≤ (dst_len : Int) - 1 := by omega
        rw [if_neg hfit', if_neg hfit, if_pos rfl]

/-- The data `ab=1&b=x%20y+z`: the name `b` is found in the second pair, not as
the suffix of the key `ab`, and its decoded value `x y z` is stored. -/
theorem mg_get_var_spec_witness :
    mg_get_var (some "ab=1&b=x%20y+z".toList) 14 (some "b".toList)
        (some (List.replicate 8 'x')) 8 =
      (5, some ("x y z".toList ++ Char.ofNat 0 :: List.replicate 2 'x')) ∧
    mg_get_var (some "ab=1&b=x%20y+z".toList) "ab=1&b=x%20y+z".toList.length
        (some "b".toList) (some (List.replicate 8 'x')) 8 =
      (if (url_decode_ref true
            (var_value "ab=1&b=x%20y+z".toList (5 + "b".toList.length + 1))).length ≤ 8 - 1
        then ((url_decode_ref true
            (var_value "ab=1&b=x%20y+z".toList (5 + "b".toList.length + 1))).length : Int)
        else -2,
       some ((url_decode_ref true
            (var_value "ab=1&b=x%20y+z".toList (5 + "b".toList.length + 1))).take (8 - 1) ++
         Char.ofNat 0 :: (List.replicate 8 'x').drop
           (min (url_decode_ref true
              (var_value "ab=1&b=x%20y+z".toList (5 + "b".toList.length + 1))).length
             (8 - 1) + 1))) :=
  ⟨by decide,
   (mg_get_var_spec "ab=1&b=x%20y+z".toList "b".toList (List.replicate 8 'x') 8
      (by intro c hc; revert c; decide) (by decide) (by decide) (by decide) (by decide)
      (by decide)).2.2.2 5
      (by unfold var_at; decide)
      (by intro q hq; interval_cases q <;> (unfold var_at; decide))⟩

/-! ## Cookies -/

/-- With an empty name the loop of `mg_get_cookie` ends only if the header
starts with `=`; otherwise `s` never moves and the function does not return. -/
theorem mg_get_cookie_empty_name :
    mg_get_cookie (some "=1".toList) (some []) (some (List.replicate 8 'x')) 8 =
      some (1, some ('1' :: Char.ofNat 0 :: List.replicate 6 'x')) ∧
    mg_get_cookie (some "a=1".toList) (some []) (some (List.replicate 8 'x')) 8 = none := by
  decide

/-- C17: in the header `xfoo=11; foo=2` the first cookie named `foo` has the
value `2`, but `mg_get_cookie` returns 2 and stores `11`, the value of the
cookie `xfoo`; in the header `xfoo=1` no cookie is named `foo`, but it returns
1 and stores `1`: an occurrence of the name inside a longer cookie name is
matched. A cookie at the start of its name is found, quotes and the trailing
`;` removed. -/
theorem mg_get_cookie_matches_inside_name :
    mg_get_cookie (some "xfoo=11; foo=2".toList) (some "foo".toList)
        (some (List.replicate 8 'x')) 8 =
      some (2, some ("11".toList ++ Char.ofNat 0 :: List.replicate 5 'x')) ∧
    mg_get_cookie (some "xfoo=1".toList) (some "foo".toList)
        (some (List.replicate 8 'x')) 8 =
      some (1, some ("1".toList ++ Char.ofNat 0 :: List.replicate 6 'x')) ∧
    mg_get_cookie (some "a=1; Foo=\"bar\"; c=3".toList) (some "foo".toList)
        (some (List.replicate 8 'x')) 8 =
      some (3, some ("bar".toList ++ Char.ofNat 0 :: List.replicate 4 'x')) := by
  decide

/-! ## Listening ports -/

theorem isdigit_not_space (c : Char) (h : isdigit c = true) :
    isspace c = false ∧ c ≠ '-' ∧ c ≠ '+' := by
  simp only [isdigit, Bool.and_eq_true, decide_eq_true_eq] at h
  exact char_cases (fun c => isspace c = false ∧ c ≠ '-' ∧ c ≠ '+') 48 57
    (by decide) c h.1 h.2

theorem scan_digits_append (rest : List Char) (hrest : ∀ c, rest.head? = some c → isdigit c = false) :
    ∀ (ds : List Char) (acc : Nat), (∀ c ∈ ds, isdigit c = true) →
      scan_digits (ds ++ rest) acc =
        (ds.foldl (fun acc c => 10 * acc + digit_value c) acc, rest)
  | [], acc, _ => by
    match rest, hrest with
    | [], _ => rfl
    | c :: cs, h =>
      have hc := h c rfl
      simp [scan_digits, hc]
  | d :: ds, acc, h => by
    have hd := h d (List.mem_cons_self _ _)
    have ih := scan_digits_append rest hrest ds (10 * acc + digit_value d)
      (fun c hc => h c (List.mem_cons_of_mem _ hc))
    simp only [List.cons_append, scan_digits, hd, if_true, List.foldl_cons]
    exact ih

/-- A number above `ULONG_MAX` is read by `%u` as `UINT_MAX` also after a minus
sign, while `-ULONG_MAX` is read as 1. -/
theorem scan_u_overflow :
    scan_u "-18446744073709551616".toList = some (2 ^ 32 - 1, []) ∧
    scan_u "-18446744073709551615".toList = some (1, []) ∧
    (parse_port_string "-18446744073709551616".toList).1 = false := by
  decide

theorem scan_u_decimal (ds rest : List Char) (hds : is_decimal ds)
    (hv : decimal_value ds < 2 ^ 32)
    (hrest : ∀ c, rest.head? = some c → isdigit c = false) :
    scan_u (ds ++ rest) = some (decimal_value ds, rest) := by
  obtain ⟨hne, hall⟩ := hds
  match ds, hne with
  | d :: ds', _ =>
    have hd := hall d (List.mem_cons_self _ _)
    obtain ⟨h1, h2, h3⟩ := isdigit_not_space d hd
    have hscan := scan_digits_append rest hrest (d :: ds') 0 hall
    have hdrop : (d :: ds' ++ rest).dropWhile isspace = d :: ds' ++ rest := by
      simp [List.dropWhile, h1]
    unfold scan_u
    simp only [hdrop]
    have hhead : (d :: ds' ++ rest).head? = some d := rfl
    have hneg : decide ((d :: ds' ++ rest).head? = some '-') = false := by
      rw [hhead]; simpa using h2
    have hsign : ¬ ((d :: ds' ++ rest).head? = some '-' ∨
        (d :: ds' ++ rest).head? = some '+') := by
      rw [hhead]
      simp only [Option.some.injEq]
      exact fun h => h.elim h2 h3
    rw [if_neg hsign, hneg, hhead]
    simp only [Option.map_some', hd, if_true, hscan, Bool.false_eq_true, if_false]
    have hval : (d :: ds').foldl (fun acc c => 10 * acc + digit_value c) 0 =
        decimal_value (d :: ds') := rfl
    rw [hval]
    generalize decimal_value (d :: ds') = v at hv
    have e1 : ¬ v > 2 ^ 64 - 1 := by omega
    rw [if_neg e1, Nat.mod_eq_of_lt hv]

theorem ipv4_eq_or (a b c d : Nat) (ha : a ≤ 255) (hb : b ≤ 255) (hc : c ≤ 255)
    (hd : d ≤ 255) :
    ((a <<< 24) % 2 ^ 32) ||| ((b <<< 16) % 2 ^ 32) ||| ((c <<< 8) % 2 ^ 32) ||| d =
      ipv4 a b c d := by
  have e1 : (a <<< 24) % 2 ^ 32 = 2 ^ 24 * a := by
    rw [Nat.shiftLeft_eq, Nat.mod_eq_of_lt (by omega)]; omega
  have e2 : (b <<< 16) % 2 ^ 32 = 2 ^ 16 * b := by
    rw [Nat.shiftLeft_eq, Nat.mod_eq_of_lt (by omega)]; omega
  have e3 : (c <<< 8) % 2 ^ 32 = 2 ^ 8 * c := by
    rw [Nat.shiftLeft_eq, Nat.mod_eq_of_lt (by omega)]; omega
  rw [e1, e2, e3, Nat.lor_assoc, Nat.lor_assoc,
    ← Nat.mul_add_lt_is_or (by omega : d < 2 ^ 8) c,
    ← Nat.mul_add_lt_is_or (by omega : 2 ^ 8 * c + d < 2 ^ 16) b,
    ← Nat.mul_add_lt_is_or (by omega : 2 ^ 16 * b + (2 ^ 8 * c + d) < 2 ^ 24) a]
  unfold ipv4
  omega

theorem cstr_at_cut (P tail : List Char) :
    cstr_at (P ++ tail) ((P ++ tail).length - tail.length) = cstr_at tail 0 := by
  have : (P ++ tail).length - tail.length = P.length := by
    rw [List.length_append]; omega
  rw [this]
  simp [cstr_at, List.getElem?_append_right]

theorem cstr_at_zero_nul (tail : List Char) (h : nul_free tail) :
    (cstr_at tail 0 == Char.ofNat 0) = decide (tail = []) := by
  match tail, h with
  | [], _ => rfl
  | c :: cs, h =>
    have hc := (nul_free_cons h).1
    simp [cstr_at, hc]

theorem head_not_digit (c : Char) (hc : isdigit c = false) (rest : List Char) :
    ∀ x, (c :: rest).head? = some x → isdigit x = false := by
  intro x hx
  have : c = x := by simpa using hx
  rw [← this]; exact hc

theorem sscanf_ip_port_grammar (da db dc dd dp tail : List Char)
    (ha : is_decimal da) (hb : is_decimal db) (hc : is_decimal dc) (hd : is_decimal dd)
    (hp : is_decimal dp)
    (va : decimal_value da < 2 ^ 32) (vb : decimal_value db < 2 ^ 32)
    (vc : decimal_value dc < 2 ^ 32) (vd : decimal_value dd < 2 ^ 32)
    (vp : decimal_value dp < 2 ^ 32)
    (htail : ∀ c, tail.head? = some c → isdigit c = false) :
    sscanf_ip_port (da ++ '.' :: (db ++ '.' :: (dc ++ '.' :: (dd ++ ':' :: (dp ++ tail))))) =
      some (decimal_value da, decimal_value db, decimal_value dc, decimal_value dd,
        decimal_value dp,
        (da ++ '.' :: (db ++ '.' :: (dc ++ '.' :: (dd ++ ':' :: (dp ++ tail))))).length -
          tail.length) := by
  have hdot : isdigit '.' = false := by decide
  have hcol : isdigit ':' = false := by decide
  have s1 := scan_u_decimal da ('.' :: (db ++ '.' :: (dc ++ '.' :: (dd ++ ':' :: (dp ++ tail)))))
    ha va (head_not_digit _ hdot _)
  have s2 := scan_u_decimal db ('.' :: (dc ++ '.' :: (dd ++ ':' :: (dp ++ tail))))
    hb vb (head_not_digit _ hdot _)
  have s3 := scan_u_decimal dc ('.' :: (dd ++ ':' :: (dp ++ tail)))
    hc vc (head_not_digit _ hdot _)
  have s4 := scan_u_decimal dd (':' :: (dp ++ tail)) hd vd (head_not_digit _ hcol _)
  have s5 := scan_u_decimal dp tail hp vp htail
  unfold sscanf_ip_port
  simp only [s1, s2, s3, s4, s5, scan_char, Option.bind_eq_bind, Option.some_bind, if_true,
    Option.pure_def]

/-- C15, as stated, fails: `parse_port_string` accepts ` 80` and `+80` (white
space or a sign before the number) as port 80 and `999.2.3.4:80` as the address
231.2.3.4, port 80, none of which is exactly `[ipv4:]port`; the two strings
named by the claim are treated as it says. -/
theorem parse_port_string_accepts_more :
    parse_port_string " 80".toList = (true, ⟨0, 80⟩) ∧
    parse_port_string "+80".toList = (true, ⟨0, 80⟩) ∧
    (∃ c ∈ " 80".toList, isdigit c = false ∧ c ≠ '.' ∧ c ≠ ':') ∧
    parse_port_string "999.2.3.4:80".toList = (true, ⟨ipv4 231 2 3 4, 80⟩) ∧
    parse_port_string "127.0.0.1:8080".toList = (true, ⟨ipv4 127 0 0 1, 8080⟩) ∧
    (parse_port_string "99999".toList).1 = false := by
  decide

/-- C15, amended: on a string `a.b.c.d:port` of decimal numbers (octets at most
255, port below 2^32) followed by `tail` that does not start with a digit,
`parse_port_string` accepts if and only if the port lies in the open interval
(0, 65535) and no character follows it, and then the socket record holds that
port and the address `a.b.c.d`; on a string `port` alone followed by `tail`
that starts neither with a digit nor with a dot, it accepts under the same
condition and the record holds that port and the any-address. -/
theorem parse_port_string_grammar (da db dc dd dp tail : List Char)
    (ha : is_decimal da) (hb : is_decimal db) (hc : is_decimal dc) (hd : is_decimal dd)
    (hp : is_decimal dp)
    (va : decimal_value da ≤ 255) (vb : decimal_value db ≤ 255)
    (vc : decimal_value dc ≤ 255) (vd : decimal_value dd ≤ 255)
    (vp : decimal_value dp < 2 ^ 32)
    (htail : ∀ c, tail.head? = some c → isdigit c = false) (hnul : nul_free tail) :
    ((parse_port_string
        (da ++ '.' :: (db ++ '.' :: (dc ++ '.' :: (dd ++ ':' :: (dp ++ tail)))))).1 = true ↔
      (0 < decimal_value dp ∧ decimal_value dp < 65535 ∧ tail = [])) ∧
    ((parse_port_string
        (da ++ '.' :: (db ++ '.' :: (dc ++ '.' :: (dd ++ ':' :: (dp ++ tail)))))).1 = true →
      (parse_port_string
        (da ++ '.' :: (db ++ '.' :: (dc ++ '.' :: (dd ++ ':' :: (dp ++ tail)))))).2 =
        ⟨ipv4 (decimal_value da) (decimal_value db) (decimal_value dc) (decimal_value dd),
         decimal_value dp⟩) ∧
    (tail.head? ≠ some '.' →
      ((parse_port_string (dp ++ tail)).1 = true ↔
        (0 < decimal_value dp ∧ decimal_value dp < 65535 ∧ tail = [])) ∧
      ((parse_port_string (dp ++ tail)).1 = true →
        (parse_port_string (dp ++ tail)).2 = ⟨0, decimal_value dp⟩)) := by
  have hvalid : ∀ t : List Char, nul_free t →
      ((is_valid_port (decimal_value dp) && (cstr_at t 0 == Char.ofNat 0)) = true ↔
        (0 < decimal_value dp ∧ decimal_value dp < 65535 ∧ t = [])) := by
    intro t ht
    rw [cstr_at_zero_nul t ht]
    simp [is_valid_port, and_assoc]
  have hport : (is_valid_port (decimal_value dp) && (cstr_at tail 0 == Char.ofNat 0)) = true →
      decimal_value dp % 2 ^ 16 = decimal_value dp := by
    intro h
    have := ((hvalid tail hnul).mp h).2.1
    exact Nat.mod_eq_of_lt (by omega)
  have h1 := sscanf_ip_port_grammar da db dc dd dp tail ha hb hc hd hp (by omega) (by omega)
    (by omega) (by omega) vp htail
  have hcut := cstr_at_cut (da ++ '.' :: (db ++ '.' :: (dc ++ '.' :: (dd ++ ':' :: dp)))) tail
  have hassoc : (da ++ '.' :: (db ++ '.' :: (dc ++ '.' :: (dd ++ ':' :: dp)))) ++ tail =
      da ++ '.' :: (db ++ '.' :: (dc ++ '.' :: (dd ++ ':' :: (dp ++ tail)))) := by
    simp [List.append_assoc]
  rw [hassoc] at hcut
  have hfull : parse_port_string
      (da ++ '.' :: (db ++ '.' :: (dc ++ '.' :: (dd ++ ':' :: (dp ++ tail))))) =
      (is_valid_port (decimal_value dp) && (cstr_at tail 0 == Char.ofNat 0),
       ⟨ipv4 (decimal_value da) (decimal_value db) (decimal_value dc) (decimal_value dd),
        decimal_value dp % 2 ^ 16⟩) := by
    unfold parse_port_string
    rw [h1]
    simp only [hcut, ipv4_eq_or _ _ _ _ va vb vc vd]
  refine ⟨?_, ?_, ?_⟩
  · rw [hfull]; exact hvalid tail hnul
  · rw [hfull]
    intro h
    simp only [hport h]
  · intro hdot
    have s5 := scan_u_decimal dp tail hp vp htail
    have hnone : sscanf_ip_port (dp ++ tail) = none := by
      unfold sscanf_ip_port
      simp only [s5, Option.bind_eq_bind, Option.some_bind]
      have : scan_char '.' tail = none := by
        match tail, hdot with
        | [], _ => rfl
        | x :: r, h =>
          have hx : x ≠ '.' := fun e => h (by rw [e]; rfl)
          simp [scan_char, hx]
      rw [this]
      rfl
    have hsome : sscanf_port (dp ++ tail) =
        some (decimal_value dp, (dp ++ tail).length - tail.length) := by
      unfold sscanf_port
      simp only [s5, Option.bind_eq_bind, Option.some_bind, Option.pure_def]
    have hfull2 : parse_port_string (dp ++ tail) =
        (is_valid_port (decimal_value dp) && (cstr_at tail 0 == Char.ofNat 0),
         ⟨0, decimal_value dp % 2 ^ 16⟩) := by
      unfold parse_port_string
      rw [hnone]
      simp only [hsome, cstr_at_cut]
    rw [hfull2]
    refine ⟨hvalid tail hnul, ?_⟩
    intro h
    simp only [hport h]

/-- The port spec `127.0.0.1:8080` is accepted as 127.0.0.1, port 8080; the
same spec followed by `s` is rejected. -/
theorem parse_port_string_grammar_witness :
    parse_port_string "127.0.0.1:8080".toList = (true, ⟨ipv4 127 0 0 1, 8080⟩) ∧
    (parse_port_string "127.0.0.1:8080s".toList).1 = false ∧
    ((parse_port_string
        ("127".toList ++ '.' :: ("0".toList ++ '.' :: ("0".toList ++ '.' ::
          ("1".toList ++ ':' :: ("8080".toList ++ [])))))).1 = true ↔
      (0 < decimal_value "8080".toList ∧ decimal_value "8080".toList < 65535 ∧
        ([] : List Char) = [])) :=
  ⟨by decide, by decide,
   (parse_port_string_grammar "127".toList "0".toList "0".toList "1".toList "8080".toList []
      (by unfold is_decimal; decide) (by unfold is_decimal; decide)
      (by unfold is_decimal; decide) (by unfold is_decimal; decide)
      (by unfold is_decimal; decide) (by decide) (by decide) (by decide) (by decide)
      (by decide) (by intro c hc; cases hc) (by intro c hc; cases hc)).1⟩

/-! ## Reading an upload -/

/-- A count computed afresh by lines 424-427 (and 496-499) is the smaller of the
free space and `left_to_read(conn)`: the first call of `pull` in the header
loop and every call in the body loop ask no more than that. -/
theorem upload_to_read_eq_min (conn : mg_connection) (buf_len len : Int)
    (h0 : 0 ≤ len) (h1 : len ≤ buf_len) (h2 : buf_len < 2 ^ 31) (h3 : 0 ≤ left_to_read conn) :
    upload_to_read conn buf_len len = min (buf_len - len) (left_to_read conn) := by
  unfold upload_to_read
  simp only
  have e : to_int (buf_len - len) = buf_len - len := to_int_of_range (by omega) (by omega)
  rw [e]
  split
  · rw [to_int_of_range (by omega) (by omega)]
    omega
  · omega

/-- C21 fails in the loop that pulls in the headers: `to_read` is computed once
before the loop and not again after `len += n`. With a buffer of 16 bytes, a
request of 6 bytes, a body of 12 bytes and nothing of it read yet, the
assertion and `left_to_read(conn) = 12 >= 0` hold on entry and `to_read` is 10.
The first `pull` returns 6 of the 10 bytes asked; the second call asks 10 bytes
again, with 4 bytes free in the buffer and `left_to_read(conn) = 6`, and returns
10: `len` is 16, above `buf_len = 10`, and `left_to_read(conn)` is -4. -/
theorem mg_upload_pull_exceeds_free_space :
    left_to_read
        { buf_size := 16, request_len := 6, data_len := 6, content_len := 12,
          num_bytes_read := 6 } = 12 ∧
    (mg_upload_pull_headers
        { buf_size := 16, request_len := 6, data_len := 6, content_len := 12, num_bytes_read := 6 }
        { recvs := [6, 10] }).map (fun r => (r.1, r.2.2.2, left_to_read r.2.1)) =
      some (16, [(10, 12, 10), (4, 6, 10)], -4) := by
  decide

/-! ## Truncated encoding -/

/-- C23 fails when an escape does not fit: encoding `a b/~` into a buffer of
`x` characters with `dst_len = 4`, the space needs `%20` but `dst + 2 < end`
is false, so nothing is written while `src++, dst++` still run. The string left
in `dst` is `axb`: the space is skipped, the second byte is the old `x`, and
`axb` is not the start of the full encoding `a%20b%2f~`. -/
theorem mg_url_encode_truncation_skips :
    mg_url_encode "a b/~".toList (List.replicate 12 'x') 4 =
      ['a', 'x', 'b', Char.ofNat 0] ++ List.replicate 8 'x' ∧
    c_string (mg_url_encode "a b/~".toList (List.replicate 12 'x') 4) = "axb".toList ∧
    url_encode_ref "a b/~".toList = "a%20b%2f~".toList ∧
    ¬ ∃ t, c_string (mg_url_encode "a b/~".toList (List.replicate 12 'x') 4) ++ t =
        url_encode_ref "a b/~".toList := by
  have h1 : mg_url_encode "a b/~".toList (List.replicate 12 'x') 4 =
      ['a', 'x', 'b', Char.ofNat 0] ++ List.replicate 8 'x' := by decide
  have h2 : c_string (mg_url_encode "a b/~".toList (List.replicate 12 'x') 4) = "axb".toList := by
    decide
  have h3 : url_encode_ref "a b/~".toList = "a%20b%2f~".toList := by decide
  refine ⟨h1, h2, h3, ?_⟩
  rw [h2, h3]
  rintro ⟨t, ht⟩
  revert ht
  simp

/-! ## Round trip on all byte strings -/

set_option maxRecDepth 100000 in
theorem hex_pair_value : ∀ n, n < 256 →
    "0123456789abcdef".toList.getD (n >>> 4) (Char.ofNat 0) ∈ hex_digits ∧
    "0123456789abcdef".toList.getD (n &&& 0xf) (Char.ofNat 0) ∈ hex_digits ∧
    "0123456789abcdef".toList.getD (n >>> 4) (Char.ofNat 0) ≠ Char.ofNat 0 ∧
    "0123456789abcdef".toList.getD (n &&& 0xf) (Char.ofNat 0) ≠ Char.ofNat 0 ∧
    16 * hex_value ("0123456789abcdef".toList.getD (n >>> 4) (Char.ofNat 0)) +
      hex_value ("0123456789abcdef".toList.getD (n &&& 0xf) (Char.ofNat 0)) = n := by
  decide

theorem url_decode_encode_ref (form : Bool) : ∀ (s : List Char),
    (∀ c ∈ s, c.toNat < 256) → url_decode_ref form (url_encode_ref s) = s
  | [], _ => by simp [url_encode_ref, url_decode_ref]
  | c :: rest, h => by
    have hc := h c (List.mem_cons_self _ _)
    have ih := url_decode_encode_ref form rest (fun x hx => h x (List.mem_cons_of_mem _ hx))
    rw [url_encode_ref]
    by_cases hs : url_safe c = true
    · rw [if_pos hs, List.singleton_append, url_decode_ref_cons,
        if_neg (fun hx => (url_safe_ne c hs).1 hx.1),
        if_neg (fun hx => (url_safe_ne c hs).2.1 hx.2), ih]
    · rw [if_neg hs]
      obtain ⟨m1, m2, _, _, e⟩ := hex_pair_value c.toNat hc
      simp only [List.cons_append, List.nil_append]
      rw [url_decode_ref_cons, if_pos ⟨rfl, by simp, m1, m2⟩]
      simp only [cstr_at, List.getD_cons_zero, List.getD_cons_succ, List.drop_succ_cons,
        List.drop_zero]
      rw [e, ih, Char.ofNat_toNat]

theorem url_encode_ref_nul_free : ∀ (s : List Char), nul_free s →
    (∀ c ∈ s, c.toNat < 256) → nul_free (url_encode_ref s)
  | [], _, _ => by simp [url_encode_ref, nul_free]
  | c :: rest, hn, h => by
    have hc := h c (List.mem_cons_self _ _)
    have ih := url_encode_ref_nul_free rest (nul_free_cons hn).2
      (fun x hx => h x (List.mem_cons_of_mem _ hx))
    obtain ⟨_, _, z1, z2, _⟩ := hex_pair_value c.toNat hc
    rw [url_encode_ref]
    intro x hx
    rw [List.mem_append] at hx
    rcases hx with hx | hx
    · split at hx
      · rw [List.mem_singleton] at hx
        rw [hx]
        exact (nul_free_cons hn).1
      · simp only [List.mem_cons, List.mem_singleton, List.not_mem_nil, or_false] at hx
        rcases hx with hx | hx | hx
        · rw [hx]; decide
        · rw [hx]; exact z1
        · rw [hx]; exact z2
    · exact ih x hx

/-- C22: for a string of bytes 0x01..0xFF, with buffers large enough,
`mg_url_encode` leaves the reference encoding in its buffer, and
`mg_url_decode` applied to that buffer and its `strlen` yields the string,
NUL-terminated, and returns its length, whatever the decoding mode. -/
theorem url_round_trip (s dst1 dst2 : List Char) (n1 n2 form : Int)
    (hnul : nul_free s) (hbyte : ∀ c ∈ s, c.toNat < 256)
    (h1 : ((url_encode_ref s).length : Int) + 1 ≤ n1) (h1' : n1 ≤ dst1.length)
    (h2 : (s.length : Int) + 1 ≤ n2) (h2' : n2 ≤ dst2.length) :
    c_string (mg_url_encode s dst1 n1) = url_encode_ref s ∧
    mg_url_decode (mg_url_encode s dst1 n1) (c_string (mg_url_encode s dst1 n1)).length
        dst2 n2 form =
      ((s.length : Int), s ++ Char.ofNat 0 :: dst2.drop (s.length + 1)) := by
  have he := mg_url_encode_fits s dst1 n1 hnul h1 h1'
  have hcs : c_string (mg_url_encode s dst1 n1) = url_encode_ref s := by
    rw [he]; exact c_string_append_nul _ _ (url_encode_ref_nul_free s hnul hbyte)
  refine ⟨hcs, ?_⟩
  rw [hcs]
  have hlen : (mg_url_encode s dst1 n1).length = dst1.length := by
    unfold mg_url_encode
    simp only [List.length_set]
    have := (mg_url_encode_loop_spec s n1 hnul s.length 0 0 dst1 (by omega) (by omega)
      (by simp only [List.drop_zero, Nat.zero_add]; omega) h1').2
    rw [this]
    simp only [List.drop_zero, Nat.zero_add, List.take_zero, List.nil_append,
      List.length_append, List.length_drop]
    omega
  have hd := mg_url_decode_spec (mg_url_encode s dst1 n1) dst2 (url_encode_ref s).length n2 form
    (by omega) (by rw [hlen]; omega) (by omega) h2'
  have htake : (mg_url_encode s dst1 n1).take (url_encode_ref s).length = url_encode_ref s := by
    rw [he, List.take_left]
  simp only [Int.toNat_ofNat, htake, url_decode_encode_ref _ s hbyte] at hd
  rw [hd, if_pos (by omega), Nat.min_eq_left (by omega), List.take_of_length_le (by omega)]

/-- The round trip of the bytes `%`, `+`, space, 0xE9, `a`, 0x01 and 0xFF
through buffers of 24 characters, in form mode: the encoding is
`%25%2b%20%e9a%01%ff`. -/
theorem url_round_trip_witness :
    mg_url_encode ['%', '+', ' ', Char.ofNat 233, 'a', Char.ofNat 1, Char.ofNat 255]
        (List.replicate 24 'x') 24 =
      "%25%2b%20%e9a%01%ff".toList ++ Char.ofNat 0 :: List.replicate 4 'x' ∧
    (c_string (mg_url_encode ['%', '+', ' ', Char.ofNat 233, 'a', Char.ofNat 1, Char.ofNat 255]
        (List.replicate 24 'x') 24) =
      url_encode_ref ['%', '+', ' ', Char.ofNat 233, 'a', Char.ofNat 1, Char.ofNat 255] ∧
    mg_url_decode
        (mg_url_encode ['%', '+', ' ', Char.ofNat 233, 'a', Char.ofNat 1, Char.ofNat 255]
          (List.replicate 24 'x') 24)
        (c_string (mg_url_encode ['%', '+', ' ', Char.ofNat 233, 'a', Char.ofNat 1, Char.ofNat 255]
          (List.replicate 24 'x') 24)).length
        (List.replicate 8 'y') 8 1 =
      (((['%', '+', ' ', Char.ofNat 233, 'a', Char.ofNat 1, Char.ofNat 255].length : Nat) : Int),
       ['%', '+', ' ', Char.ofNat 233, 'a', Char.ofNat 1, Char.ofNat 255] ++ Char.ofNat 0 ::
         (List.replicate 8 'y').drop
           (['%', '+', ' ', Char.ofNat 233, 'a', Char.ofNat 1, Char.ofNat 255].length + 1))) :=
  ⟨by decide,
   url_round_trip ['%', '+', ' ', Char.ofNat 233, 'a', Char.ofNat 1, Char.ofNat 255]
    (List.replicate 24 'x') (List.replicate 8 'y') 24 8 1
    (by intro c hc; revert c; decide) (by decide) (by decide) (by decide) (by decide)
    (by decide)⟩

end Mingoose
